import Mathlib

/-!
Bit primitives of `source/blender/blenlib/intern/math_bits_inline.c`

A shallow embedding of the bit-scan, scan-and-clear, highest-order-bit,
population-count and float reinterpretation primitives, followed by theorems about
them.

Conventions of the embedding

* `unsigned int` is a `Nat` below `2^32`, `unsigned short` a `Nat` below `2^16`;
  unsigned arithmetic is reduced modulo the width of its type.
* `int` is an `Int` in `[-2^31, 2^31)` (two's complement).  The conversions
  `(unsigned int)a` and `(int)a` are `toUInt` and `toInt`; both keep the
  32-bit pattern.  Bitwise operators on `int` act on the 32-bit pattern.
  Signed `-` wraps modulo `2^32`.
* A function taking `int *a` takes the value of `*a` and returns the pair
  (returned value, value of `*a` afterwards).
* A call either produces a value or stops with a `Fault`: a failed
  `BLI_assert`, or a shift whose count is not below the 32-bit operand width.
* A `float` is the 32-bit pattern of its object representation; a union is the one
  32-bit word shared by its members.
-/

namespace MathBits

/-! ## Machine integers -/

/-- Conversion `(unsigned int)a` of an `int`: the 32-bit pattern of `a`. -/
def toUInt (a : Int) : Nat := (a % 4294967296).toNat

/-- Conversion `(int)u` of an `unsigned int`: the two's complement reading of the
32-bit pattern of `u`. -/
def toInt (u : Nat) : Int :=
  if u % 4294967296 < 2147483648 then ((u % 4294967296 : Nat) : Int)
  else ((u % 4294967296 : Nat) : Int) - 4294967296

/-- Range of the type `int`. -/
def IsInt32 (a : Int) : Prop := -2147483648 ≤ a ∧ a < 2147483648

instance (a : Int) : Decidable (IsInt32 a) := by unfold IsInt32; infer_instance

/-- Operator `&` on two `int` operands. -/
def and_int (a b : Int) : Int := toInt (toUInt a &&& toUInt b)

/-- Operator `~` on an `int` operand: every one of the 32 bits is flipped. -/
def not_int (a : Int) : Int := toInt (4294967295 - toUInt a)

/-- Operator `-` on two `int` operands, wrapping modulo `2^32`. -/
def sub_int (a b : Int) : Int := toInt (toUInt (a - b))

/-- Ways a call can stop without a value. -/
inductive Fault where
  /-- The condition of a `BLI_assert` was false. -/
  | assertion
  /-- The count of a shift was not below the width of the shifted operand. -/
  | shiftCount
  deriving DecidableEq, Repr

/-- Outcome of a call: a value, or the fault that stopped it. -/
inductive Res (α : Type) where
  | ok (v : α)
  | fault (f : Fault)
  deriving DecidableEq, Repr

/-- Sequencing of two fallible steps. -/
def Res.bind {α β : Type} (r : Res α) (k : α → Res β) : Res β :=
  match r with
  | Res.ok v => k v
  | Res.fault f => Res.fault f

instance : Monad Res where
  pure := Res.ok
  bind := Res.bind

/-- Modelled from the spec: the macro `BLI_assert` of the assertion facility (its
definition is outside this file): "signaled by failing a debug-only precondition
check". -/
def BLI_assert (c : Bool) : Res Unit :=
  if c then Res.ok () else Res.fault Fault.assertion

/-- Operator `<<` with an `int` left operand and shift count `s`.  The count must be
below 32; the result keeps the low 32 bits of the shifted pattern. -/
def shl_int (a : Int) (s : Nat) : Res Int :=
  if s < 32 then Res.ok (toInt ((toUInt a <<< s) % 4294967296))
  else Res.fault Fault.shiftCount

/-- Subtraction in `size_t` (taken 64 bits wide), as in `sizeof(int) * 8 - i`. -/
def sub_size (a b : Nat) : Nat :=
  (a + 18446744073709551616 - b % 18446744073709551616) % 18446744073709551616

/-- Conversion of an `int` to `size_t`. -/
def toSize (a : Int) : Nat := (a % 18446744073709551616).toNat

/-! ## Compiler intrinsics -/

/-- Scan upwards from bit 0 over at most `fuel` bits, counting the zero bits met
before the first set bit. -/
def ctzLoop : Nat → Nat → Nat
  | 0, _ => 0
  | fuel + 1, u => if u % 2 = 1 then 0 else 1 + ctzLoop fuel (u / 2)

/-- Modelled from the spec: the compiler intrinsic `__builtin_ctz` (not part of this
file), "trailing zero count: number of zero bits before the first set bit, counted
from the least-significant end".  The argument is a 32-bit pattern. -/
def builtin_ctz (u : Nat) : Nat := ctzLoop 32 u

/-- Scan downwards from bit `fuel - 1`, counting the zero bits met before the first
set bit. -/
def clzLoop : Nat → Nat → Nat
  | 0, _ => 0
  | fuel + 1, u => if u / 2 ^ fuel % 2 = 1 then 0 else 1 + clzLoop fuel u

/-- Modelled from the spec: the compiler intrinsic `__builtin_clz` (not part of this
file), "leading zero count: number of zero bits before the first set bit, counted
from the most-significant end".  The argument is a 32-bit pattern. -/
def builtin_clz (u : Nat) : Nat := clzLoop 32 u

/-! ## Bit scan -/

/-- Function `bitscan_forward_i`, the path without `_MSC_VER`. -/
def bitscan_forward_i (a : Int) : Res Int := do
  BLI_assert (decide (a ≠ 0))
  return (builtin_ctz (toUInt a) : Int)

/-- Function `bitscan_forward_uint`. -/
def bitscan_forward_uint (a : Nat) : Res Nat := do
  let r ← bitscan_forward_i (toInt a)
  return toUInt r

/-- Function `bitscan_forward_clear_i`; the argument is the value of `*a`, the result
is the returned index paired with the value of `*a` after the call. -/
def bitscan_forward_clear_i (a : Int) : Res (Int × Int) := do
  let i ← bitscan_forward_i a
  let a1 := and_int a (sub_int a 1)
  return (i, a1)

/-- Function `bitscan_forward_clear_uint`: the word behind the pointer is read and
written as an `int`. -/
def bitscan_forward_clear_uint (a : Nat) : Res (Nat × Nat) := do
  let r ← bitscan_forward_clear_i (toInt a)
  return (toUInt r.1, toUInt r.2)

/-- Function `bitscan_reverse_i`, the path without `_MSC_VER`. -/
def bitscan_reverse_i (a : Int) : Res Int := do
  BLI_assert (decide (a ≠ 0))
  return (builtin_clz (toUInt a) : Int)

/-- Function `bitscan_reverse_uint`. -/
def bitscan_reverse_uint (a : Nat) : Res Nat := do
  let r ← bitscan_reverse_i (toInt a)
  return toUInt r

/-- Function `bitscan_reverse_clear_i`; the argument is the value of `*a`, the result
is the returned value paired with the value of `*a` after the call. -/
def bitscan_reverse_clear_i (a : Int) : Res (Int × Int) := do
  let i ← bitscan_reverse_i a
  let m ← shl_int 1 (sub_size (sub_size (4 * 8) (toSize i)) 1)
  let a1 := and_int a (not_int m)
  return (i, a1)

/-- Function `bitscan_reverse_clear_uint`: the word behind the pointer is read and
written as an `int`. -/
def bitscan_reverse_clear_uint (a : Nat) : Res (Nat × Nat) := do
  let r ← bitscan_reverse_clear_i (toInt a)
  return (toUInt r.1, toUInt r.2)

/-! ## The `_MSC_VER` path of the scans -/

/-- Search upwards from bit `k` over at most `fuel` positions for the first set bit
and give its index. -/
def scanUp : Nat → Nat → Nat → Nat
  | 0, k, _ => k
  | fuel + 1, k, mask => if mask.testBit k then k else scanUp fuel (k + 1) mask

/-- Modelled from the spec: the compiler intrinsic `_BitScanForward` (not part of
this file), which writes the index, counted from the least significant bit, of the
lowest set bit of a nonzero 32-bit mask. -/
def BitScanForward (mask : Nat) : Nat := scanUp 32 0 mask

/-- Search downwards from bit `fuel - 1` for the first set bit and give its index. -/
def scanDown : Nat → Nat → Nat
  | 0, _ => 0
  | fuel + 1, mask => if mask.testBit fuel then fuel else scanDown fuel mask

/-- Modelled from the spec: the compiler intrinsic `_BitScanReverse` (not part of
this file), which writes the index, counted from the least significant bit, of the
highest set bit of a nonzero 32-bit mask. -/
def BitScanReverse (mask : Nat) : Nat := scanDown 32 mask

/-- Function `bitscan_forward_i`, the path under `_MSC_VER`: the index written by
`_BitScanForward` is returned. -/
def bitscan_forward_i_msvc (a : Int) : Res Int := do
  BLI_assert (decide (a ≠ 0))
  let ctz := BitScanForward (toUInt a)
  return toInt ctz

/-- Function `bitscan_reverse_i`, the path under `_MSC_VER`: the index written by
`_BitScanReverse` is returned. -/
def bitscan_reverse_i_msvc (a : Int) : Res Int := do
  BLI_assert (decide (a ≠ 0))
  let clz := BitScanReverse (toUInt a)
  return toInt clz

/-! ## Highest order bit -/

/-- Function `highest_order_bit_uint`. -/
def highest_order_bit_uint (n : Nat) : Res Nat := do
  if n = 0 then
    return 0
  let r ← bitscan_reverse_uint n
  let v ← shl_int 1 (sub_size (4 * 8) r)
  return toUInt v

/-- Conversion `(unsigned short)a` of an `int`. -/
def toUShort (a : Int) : Nat := (a % 65536).toNat

/-- Function `highest_order_bit_s`.  Each `n |= (n >> s)` is evaluated in `int` and
stored back into the 16-bit `n`. -/
def highest_order_bit_s (n : Nat) : Nat :=
  let n1 := toUShort ((n ||| (n >>> 1) : Nat) : Int)
  let n2 := toUShort ((n1 ||| (n1 >>> 2) : Nat) : Int)
  let n3 := toUShort ((n2 ||| (n2 >>> 4) : Nat) : Int)
  let n4 := toUShort ((n3 ||| (n3 >>> 8) : Nat) : Int)
  toUShort ((n4 : Int) - ((n4 >>> 1 : Nat) : Int))

/-! ## Population count -/

/-- Operator `-` on two `unsigned int` operands. -/
def sub_uint (a b : Nat) : Nat := (a + 4294967296 - b % 4294967296) % 4294967296

/-- Function `count_bits_i` (compiled when `__GNUC__` is not defined). -/
def count_bits_i (i : Nat) : Int :=
  let i1 := sub_uint i ((i >>> 1) &&& 0x55555555)
  let i2 := ((i1 &&& 0x33333333) + ((i1 >>> 2) &&& 0x33333333)) % 4294967296
  toInt ((((((i2 + (i2 >>> 4)) % 4294967296) &&& 0x0F0F0F0F) * 0x01010101) % 4294967296) >>> 24)

/-- Naive loop over `w` bits: add the lowest bit to the count, shift right by one,
repeat. -/
def popcountLoop : Nat → Nat → Nat
  | 0, _ => 0
  | w + 1, u => (u &&& 1) + popcountLoop w (u >>> 1)

/-- Reference population count of a 32-bit pattern, following the spec's words ("a
naive loop-based bit count"): the number of set bits among bits 0..31. -/
def popcount_naive (u : Nat) : Nat := popcountLoop 32 u

/-! ## Reinterpretation between `float` and integers -/

/-- A `float`, represented by the 32 bits of its object representation (IEEE-754
binary32: bit 31 is the sign, bits 30..23 the exponent, bits 22..0 the fraction).  The
functions below never compute with the value, they only move these bits. -/
structure Float32 where
  /-- The 32-bit pattern. -/
  bits : Nat
  deriving DecidableEq, Repr

/-- The pattern fits in 32 bits. -/
def Float32.Valid (f : Float32) : Prop := f.bits < 4294967296

instance (f : Float32) : Decidable f.Valid := by unfold Float32.Valid; infer_instance

/-- The pattern is a NaN: exponent all ones, fraction not zero. -/
def Float32.isNaN (f : Float32) : Bool :=
  f.bits / 8388608 % 256 == 255 && f.bits % 8388608 != 0

/-- The pattern is an infinity: exponent all ones, fraction zero. -/
def Float32.isInf (f : Float32) : Bool :=
  f.bits / 8388608 % 256 == 255 && f.bits % 8388608 == 0

/-- Storage shared by the two members of `union { int i; float f; }` and of
`union { unsigned int i; float f; }`: one 32-bit word. -/
structure Union32 where
  /-- The 32 bits held by the union. -/
  storage : Nat
  deriving DecidableEq, Repr

/-- Assignment `u.f = f`. -/
def Union32.write_f (f : Float32) : Union32 := ⟨f.bits % 4294967296⟩

/-- Read of `u.f`. -/
def Union32.read_f (u : Union32) : Float32 := ⟨u.storage⟩

/-- Assignment `u.i = i` for the member `int i`. -/
def Union32.write_i (i : Int) : Union32 := ⟨toUInt i⟩

/-- Read of `u.i` for the member `int i`. -/
def Union32.read_i (u : Union32) : Int := toInt u.storage

/-- Assignment `u.i = i` for the member `unsigned int i`. -/
def Union32.write_ui (i : Nat) : Union32 := ⟨i % 4294967296⟩

/-- Read of `u.i` for the member `unsigned int i`. -/
def Union32.read_ui (u : Union32) : Nat := u.storage

/-- Function `float_as_int`. -/
def float_as_int (f : Float32) : Int := (Union32.write_f f).read_i

/-- Function `float_as_uint`. -/
def float_as_uint (f : Float32) : Nat := (Union32.write_f f).read_ui

/-- Function `int_as_float`. -/
def int_as_float (i : Int) : Float32 := (Union32.write_i i).read_f

/-- Function `uint_as_float`. -/
def uint_as_float (i : Nat) : Float32 := (Union32.write_ui i).read_f

/-- Operator `^` on two `int` operands. -/
def xor_int (a b : Int) : Int := toInt (toUInt a ^^^ toUInt b)

/-- Function `xor_fl`. -/
def xor_fl (x : Float32) (y : Int) : Float32 := int_as_float (xor_int (float_as_int x) y)

/-! ## Iterating over the set bits -/

/-- Positions of the set bits of a 32-bit pattern, lowest first. -/
def set_bits_up (u : Nat) : List Nat := (List.range 32).filter (fun j => u.testBit j)

/-- Modelled from the spec: the caller's loop of the "typical use", which calls
`bitscan_forward_clear_i` on the same word "until it becomes zero" and collects the
returned indices.  At most `fuel` calls are made; the result is `none` when the word
is still nonzero after them. -/
def forward_clear_loop : Nat → Int → Res (Option (List Int))
  | 0, a => if a = 0 then Res.ok (some []) else Res.ok none
  | fuel + 1, a =>
    if a = 0 then Res.ok (some [])
    else do
      let r ← bitscan_forward_clear_i a
      let rest ← forward_clear_loop fuel r.2
      return rest.map (fun l => r.1 :: l)

/-- Modelled from the spec: the same loop with `bitscan_reverse_clear_i`. -/
def reverse_clear_loop : Nat → Int → Res (Option (List Int))
  | 0, a => if a = 0 then Res.ok (some []) else Res.ok none
  | fuel + 1, a =>
    if a = 0 then Res.ok (some [])
    else do
      let r ← bitscan_reverse_clear_i a
      let rest ← reverse_clear_loop fuel r.2
      return rest.map (fun l => r.1 :: l)

/-! ## Auxiliary: the steps of `count_bits_i` on a single byte -/

/-- First step restricted to one byte `b`: every 2-bit field holds the number of set
bits of that field of `b`. -/
def swar_pairs (b : Nat) : Nat := b - ((b / 2) &&& 85)

/-- Second step restricted to one byte: every 4-bit field holds the sum of its two
2-bit fields. -/
def swar_nibbles (c : Nat) : Nat := (c &&& 51) + ((c / 4) &&& 51)

/-- Third step restricted to one byte: the sum of its two 4-bit fields. -/
def swar_byte (d : Nat) : Nat := d % 16 + d / 16



/-! ## Lemmas on the conversions -/

theorem toUInt_lt (a : Int) : toUInt a < 4294967296 := by
  unfold toUInt; omega

theorem toUInt_toInt (u : Nat) : toUInt (toInt u) = u % 4294967296 := by
  unfold toUInt toInt; split <;> omega

theorem toInt_toUInt (a : Int) (h : IsInt32 a) : toInt (toUInt a) = a := by
  unfold IsInt32 at h; unfold toUInt toInt; split <;> omega

theorem toUInt_eq_zero_iff (a : Int) (h : IsInt32 a) : toUInt a = 0 ↔ a = 0 := by
  unfold IsInt32 at h; unfold toUInt; omega

theorem toUInt_pos (a : Int) (h : IsInt32 a) (h0 : a ≠ 0) : 0 < toUInt a := by
  have := (toUInt_eq_zero_iff a h).not.mpr h0
  omega

theorem toUInt_natCast (k : Nat) (h : k < 4294967296) : toUInt (k : Int) = k := by
  unfold toUInt; omega

theorem toSize_natCast (k : Nat) (h : k < 4294967296) : toSize (k : Int) = k := by
  unfold toSize; omega

theorem isInt32_toInt (u : Nat) : IsInt32 (toInt u) := by
  unfold IsInt32 toInt; split <;> omega

theorem toUInt_sub_one (a : Int) (h : 0 < toUInt a) : toUInt (a - 1) = toUInt a - 1 := by
  unfold toUInt at *; omega

/-! ## Lemmas on the fallible steps -/

@[simp] theorem Res.ok_bind {α β : Type} (v : α) (k : α → Res β) :
    (Res.ok v >>= k) = k v := rfl

@[simp] theorem Res.fault_bind {α β : Type} (f : Fault) (k : α → Res β) :
    (Res.fault f >>= k) = Res.fault f := rfl

@[simp] theorem Res.pure_eq {α : Type} (v : α) : (pure v : Res α) = Res.ok v := rfl

theorem bitscan_forward_i_eq (a : Int) (h0 : a ≠ 0) :
    bitscan_forward_i a = Res.ok (builtin_ctz (toUInt a) : Int) := by
  simp [bitscan_forward_i, BLI_assert, h0]

theorem bitscan_reverse_i_eq (a : Int) (h0 : a ≠ 0) :
    bitscan_reverse_i a = Res.ok (builtin_clz (toUInt a) : Int) := by
  simp [bitscan_reverse_i, BLI_assert, h0]

/-! ## Lemmas on bit patterns -/

theorem and_rec (x y : Nat) : x &&& y = 2 * (x / 2 &&& y / 2) + (x % 2) * (y % 2) := by
  have h := Nat.div_add_mod (x &&& y) 2
  rw [Nat.and_div_two] at h
  have h2 : (x &&& y) % 2 = (x % 2) * (y % 2) := by
    rw [← Nat.and_one_is_mod (x &&& y), Nat.and_assoc, Nat.and_one_is_mod y]
    rcases Nat.mod_two_eq_zero_or_one y with h0 | h1
    · rw [h0]; simp
    · rw [h1, Nat.and_one_is_mod]; simp
  omega

theorem two_pow_le_of_bit (u k : Nat) (h : u / 2 ^ k % 2 = 1) : 2 ^ k ≤ u := by
  by_contra hc
  have hz : u / 2 ^ k = 0 := Nat.div_eq_of_lt (by omega)
  rw [hz] at h
  exact absurd h (by decide)

theorem ctzLoop_spec : ∀ (n u : Nat), 0 < u → u < 2 ^ n →
    ctzLoop n u < n ∧ u / 2 ^ ctzLoop n u % 2 = 1 ∧ u % 2 ^ ctzLoop n u = 0 := by
  intro n
  induction n with
  | zero => intro u h0 h1; simp at h1; omega
  | succ n ih =>
    intro u h0 h1
    rw [pow_succ] at h1
    unfold ctzLoop
    split
    · rename_i hodd
      simp [hodd, Nat.mod_one]
    · rename_i heven
      have hu : 0 < u / 2 := by omega
      have hlt : u / 2 < 2 ^ n := by omega
      obtain ⟨a, b, c⟩ := ih (u / 2) hu hlt
      refine ⟨by omega, ?_, ?_⟩
      · rw [Nat.add_comm 1, pow_succ, Nat.mul_comm, ← Nat.div_div_eq_div_mul]; exact b
      · rw [Nat.add_comm 1, pow_succ, Nat.mul_comm, Nat.mod_mul, c]; omega

theorem clzLoop_spec : ∀ (n u : Nat), 0 < u → u < 2 ^ n →
    clzLoop n u < n ∧ 2 ^ (n - 1 - clzLoop n u) ≤ u ∧ u < 2 ^ (n - clzLoop n u) := by
  intro n
  induction n with
  | zero => intro u h0 h1; simp at h1; omega
  | succ n ih =>
    intro u h0 h1
    unfold clzLoop
    split
    · rename_i hset
      refine ⟨by omega, ?_, by simpa using h1⟩
      simpa using two_pow_le_of_bit u n hset
    · rename_i hclr
      have hq : u / 2 ^ n < 2 := by
        rw [Nat.div_lt_iff_lt_mul (Nat.pow_pos (by decide))]
        rw [pow_succ] at h1; omega
      have hz : u / 2 ^ n = 0 := by
        generalize u / 2 ^ n = q at hq hclr
        omega
      have hlt : u < 2 ^ n := by
        rcases Nat.lt_or_ge u (2 ^ n) with h | h
        · exact h
        · have := Nat.div_pos h (Nat.pow_pos (by decide))
          rw [hz] at this
          exact absurd this (by decide)
      obtain ⟨a, b, c⟩ := ih u h0 hlt
      refine ⟨by omega, ?_, ?_⟩
      · have e : n + 1 - 1 - (1 + clzLoop n u) = n - 1 - clzLoop n u := by omega
        rw [e]; exact b
      · have e : n + 1 - (1 + clzLoop n u) = n - clzLoop n u := by omega
        rw [e]; exact c

theorem testBit_of_range (u p : Nat) (lo : 2 ^ p ≤ u) (hi : u < 2 ^ (p + 1)) :
    u / 2 ^ p = 1 := by
  apply Nat.div_eq_of_lt_le
  · simpa using lo
  · rw [pow_succ] at hi; omega

theorem testBit_false_above (u p j : Nat) (hi : u < 2 ^ (p + 1)) (hj : p < j) :
    u.testBit j = false := by
  apply Nat.testBit_lt_two_pow
  exact Nat.lt_of_lt_of_le hi (Nat.pow_le_pow_right (by decide) hj)



/-! ## Lemmas on clearing one bit -/

theorem and_pred_eq : ∀ (n u : Nat), 0 < u → u < 2 ^ n →
    u &&& (u - 1) = u - 2 ^ ctzLoop n u := by
  intro n
  induction n with
  | zero => intro u h0 h1; simp at h1; omega
  | succ n ih =>
    intro u h0 h1
    rw [pow_succ] at h1
    rw [and_rec]
    unfold ctzLoop
    split
    · rename_i hodd
      have e1 : (u - 1) / 2 = u / 2 := by omega
      have e2 : (u - 1) % 2 = 0 := by omega
      rw [e1, e2, Nat.and_self]; simp; omega
    · rename_i heven
      have hu : 0 < u / 2 := by omega
      have hlt : u / 2 < 2 ^ n := by omega
      have e1 : (u - 1) / 2 = u / 2 - 1 := by omega
      have e0 : u % 2 = 0 := by omega
      rw [e1, e0, ih (u / 2) hu hlt, Nat.add_comm 1, pow_succ]
      have := (ctzLoop_spec n (u / 2) hu hlt).2.2
      have hle : 2 ^ ctzLoop n (u / 2) ≤ u / 2 := Nat.le_of_dvd hu (Nat.dvd_of_mod_eq_zero this)
      omega

theorem testBit_sub_two_pow : ∀ (k u j : Nat), u / 2 ^ k % 2 = 1 →
    (u - 2 ^ k).testBit j = (u.testBit j && decide (j ≠ k)) := by
  intro k
  induction k with
  | zero =>
    intro u j h
    simp at h
    cases j with
    | zero => simp [Nat.testBit_zero]; omega
    | succ j =>
      rw [Nat.testBit_succ, Nat.testBit_succ]
      have : (u - 2 ^ 0) / 2 = u / 2 := by simp; omega
      rw [this]; simp
  | succ k ih =>
    intro u j h
    rw [pow_succ, Nat.mul_comm, ← Nat.div_div_eq_div_mul] at h
    have hle : 2 ^ k ≤ u / 2 := two_pow_le_of_bit (u / 2) k h
    cases j with
    | zero =>
      simp [Nat.testBit_zero, pow_succ]; omega
    | succ j =>
      rw [Nat.testBit_succ, Nat.testBit_succ]
      have : (u - 2 ^ (k + 1)) / 2 = u / 2 - 2 ^ k := by rw [pow_succ]; omega
      rw [this, ih (u / 2) j h]; simp

theorem two_pow_lt_word (k : Nat) (hk : k < 32) : 2 ^ k < 4294967296 := by
  have h : (2 : Nat) ^ k < 2 ^ 32 := Nat.pow_lt_pow_right (by decide) hk
  simpa using h

theorem and_not_two_pow (u k : Nat) (hu : u < 4294967296) (hk : k < 32)
    (hb : u / 2 ^ k % 2 = 1) : u &&& (4294967295 - 2 ^ k) = u - 2 ^ k := by
  apply Nat.eq_of_testBit_eq
  intro j
  have e : 4294967295 - 2 ^ k = 2 ^ 32 - (2 ^ k + 1) := by
    have := two_pow_lt_word k hk
    omega
  have h32 : (2 : Nat) ^ k < 2 ^ 32 := Nat.pow_lt_pow_right (by decide) hk
  rw [testBit_sub_two_pow k u j hb, Nat.testBit_and, e, Nat.testBit_two_pow_sub_succ h32,
    Nat.testBit_two_pow]
  by_cases hj : j < 32
  · by_cases hjk : k = j
    · subst hjk; simp
    · have : j ≠ k := fun h => hjk h.symm
      simp [hj, hjk, this]
  · have hz : u.testBit j = false := by
      apply Nat.testBit_lt_two_pow
      have : (2 : Nat) ^ 32 ≤ 2 ^ j := Nat.pow_le_pow_right (by decide) (by omega)
      omega
    simp [hz]

theorem toUInt_and_int (a b : Int) : toUInt (and_int a b) = toUInt a &&& toUInt b := by
  unfold and_int
  rw [toUInt_toInt]
  apply Nat.mod_eq_of_lt
  exact Nat.lt_of_le_of_lt Nat.and_le_left (toUInt_lt a)

theorem shl_int_one (k : Nat) (hk : k < 32) : shl_int 1 k = Res.ok (toInt (2 ^ k)) := by
  have h1 : toUInt 1 = 1 := by decide
  have := two_pow_lt_word k hk
  unfold shl_int
  rw [if_pos hk, h1, Nat.shiftLeft_eq, Nat.one_mul, Nat.mod_eq_of_lt this]

theorem toUInt_not_int_two_pow (k : Nat) (hk : k < 32) :
    toUInt (not_int (toInt (2 ^ k))) = 4294967295 - 2 ^ k := by
  have := two_pow_lt_word k hk
  unfold not_int
  rw [toUInt_toInt, toUInt_toInt, Nat.mod_eq_of_lt this]
  generalize 2 ^ k = p at this
  omega

theorem sub_size_clz (r : Nat) (hr : r < 32) :
    sub_size (sub_size (4 * 8) (toSize (r : Int))) 1 = 31 - r := by
  rw [toSize_natCast r (by omega)]
  unfold sub_size
  omega

/-- Masking an `int` with the complement of a single-bit mask subtracts that bit from
the pattern, provided the bit is set. -/
theorem and_int_not_two_pow (x : Int) (k : Nat) (hk : k < 32)
    (hb : toUInt x / 2 ^ k % 2 = 1) :
    and_int x (not_int (toInt (2 ^ k))) = toInt (toUInt x - 2 ^ k) := by
  unfold and_int
  rw [toUInt_not_int_two_pow k hk, and_not_two_pow (toUInt x) k (toUInt_lt x) hk hb]

/-- Pattern-level description of `bitscan_forward_clear_i`. -/
theorem bitscan_forward_clear_i_eq (x : Int) (hx : IsInt32 x) (h0 : x ≠ 0) :
    bitscan_forward_clear_i x =
      Res.ok ((builtin_ctz (toUInt x) : Int), toInt (toUInt x - 2 ^ builtin_ctz (toUInt x))) := by
  have hpos := toUInt_pos x hx h0
  have hlt : toUInt x < 2 ^ 32 := by simpa using toUInt_lt x
  have e : and_int x (sub_int x 1) = toInt (toUInt x - 2 ^ builtin_ctz (toUInt x)) := by
    unfold and_int sub_int builtin_ctz
    rw [toUInt_toInt, toUInt_sub_one x hpos,
      Nat.mod_eq_of_lt (by have := toUInt_lt x; omega),
      and_pred_eq 32 (toUInt x) hpos hlt]
  simp [bitscan_forward_clear_i, bitscan_forward_i_eq x h0, e]

/-- The bit found by the reverse scan is set. -/
theorem clz_bit_set (u : Nat) (hpos : 0 < u) (hlt : u < 4294967296) :
    builtin_clz u < 32 ∧ u / 2 ^ (31 - builtin_clz u) = 1 := by
  have hlt2 : u < 2 ^ 32 := by simpa using hlt
  obtain ⟨hr, lo, hi⟩ := clzLoop_spec 32 u hpos hlt2
  refine ⟨hr, ?_⟩
  have e0 : 32 - 1 - clzLoop 32 u = 31 - clzLoop 32 u := rfl
  have e1 : 32 - clzLoop 32 u = 31 - clzLoop 32 u + 1 := by omega
  rw [e0] at lo
  rw [e1] at hi
  exact testBit_of_range u (31 - clzLoop 32 u) lo hi

/-- Pattern-level description of `bitscan_reverse_clear_i`. -/
theorem bitscan_reverse_clear_i_eq (x : Int) (hx : IsInt32 x) (h0 : x ≠ 0) :
    bitscan_reverse_clear_i x =
      Res.ok ((builtin_clz (toUInt x) : Int),
        toInt (toUInt x - 2 ^ (31 - builtin_clz (toUInt x)))) := by
  have hpos := toUInt_pos x hx h0
  obtain ⟨hr, hq⟩ := clz_bit_set (toUInt x) hpos (toUInt_lt x)
  have hb : toUInt x / 2 ^ (31 - builtin_clz (toUInt x)) % 2 = 1 := by rw [hq]
  have hk : 31 - builtin_clz (toUInt x) < 32 := by omega
  unfold bitscan_reverse_clear_i
  rw [bitscan_reverse_i_eq x h0, Res.ok_bind, sub_size_clz _ hr, shl_int_one _ hk, Res.ok_bind,
    and_int_not_two_pow x _ hk hb]
  rfl



/-! ## Lemmas on reading one bit and on the reference population count -/

theorem shiftRight_and_one (u k : Nat) : (u >>> k) &&& 1 = u / 2 ^ k % 2 := by
  rw [Nat.shiftRight_eq_div_pow, Nat.and_one_is_mod]

theorem testBit_of_bit (u k : Nat) (h : u / 2 ^ k % 2 = 1) : u.testBit k = true := by
  rw [Nat.testBit_to_div_mod]; exact decide_eq_true h

theorem bit_of_testBit_false (u k : Nat) (h : u.testBit k = false) : u / 2 ^ k % 2 = 0 := by
  rw [Nat.testBit_to_div_mod] at h
  have := of_decide_eq_false h
  omega

theorem toUInt_toInt_sub (u p : Nat) (hu : u < 4294967296) :
    toUInt (toInt (u - p)) = u - p := by
  rw [toUInt_toInt]; exact Nat.mod_eq_of_lt (by omega)

theorem popcountLoop_clear_bit : ∀ (w u k : Nat), k < w → u / 2 ^ k % 2 = 1 →
    popcountLoop w (u - 2 ^ k) + 1 = popcountLoop w u := by
  intro w
  induction w with
  | zero => intro u k hk; omega
  | succ w ih =>
    intro u k hk hb
    unfold popcountLoop
    rw [Nat.and_one_is_mod, Nat.and_one_is_mod, Nat.shiftRight_eq_div_pow,
      Nat.shiftRight_eq_div_pow, Nat.pow_one]
    cases k with
    | zero =>
      simp at hb
      have e1 : (u - 2 ^ 0) % 2 = 0 := by simp; omega
      have e2 : (u - 2 ^ 0) / 2 = u / 2 := by simp; omega
      rw [e1, e2, hb]; omega
    | succ k =>
      rw [pow_succ, Nat.mul_comm, ← Nat.div_div_eq_div_mul] at hb
      have hle : 2 ^ k ≤ u / 2 := two_pow_le_of_bit (u / 2) k hb
      have e1 : (u - 2 ^ (k + 1)) % 2 = u % 2 := by rw [pow_succ]; omega
      have e2 : (u - 2 ^ (k + 1)) / 2 = u / 2 - 2 ^ k := by rw [pow_succ]; omega
      have := ih (u / 2) k (by omega) hb
      rw [e1, e2]; omega



/-! ## Lemmas on masks, byte by byte -/

theorem and_mod_pow (a b k : Nat) : (a &&& b) % 2 ^ k = a % 2 ^ k &&& b % 2 ^ k := by
  apply Nat.eq_of_testBit_eq
  intro j
  simp only [Nat.testBit_mod_two_pow, Nat.testBit_and]
  cases decide (j < k) <;> simp

theorem and_div_pow (a b k : Nat) : (a &&& b) / 2 ^ k = a / 2 ^ k &&& b / 2 ^ k := by
  apply Nat.eq_of_testBit_eq
  intro j
  simp only [← Nat.shiftRight_eq_div_pow, Nat.testBit_shiftRight, Nat.testBit_and]

theorem and_split (a b k : Nat) :
    a &&& b = (a % 2 ^ k &&& b % 2 ^ k) + 2 ^ k * (a / 2 ^ k &&& b / 2 ^ k) := by
  rw [← and_mod_pow, ← and_div_pow]
  exact (Nat.mod_add_div _ _).symm

theorem and_split8 (a b : Nat) :
    a &&& b = (a % 256 &&& b % 256) + 256 * (a / 256 &&& b / 256) := by
  have h := and_split a b 8
  simpa using h

/-- A mask applied to a 32-bit word acts on each of its four bytes. -/
theorem and_bytes4 (x m : Nat) :
    x &&& m = (x % 256 &&& m % 256) + 256 * ((x / 256 % 256) &&& (m / 256 % 256))
      + 65536 * ((x / 65536 % 256) &&& (m / 65536 % 256))
      + 16777216 * ((x / 16777216) &&& (m / 16777216)) := by
  have h1 := and_split8 x m
  have h2 := and_split8 (x / 256) (m / 256)
  have h3 := and_split8 (x / 256 / 256) (m / 256 / 256)
  rw [Nat.div_div_eq_div_mul, Nat.div_div_eq_div_mul] at h3
  rw [Nat.div_div_eq_div_mul, Nat.div_div_eq_div_mul] at h3
  rw [Nat.div_div_eq_div_mul, Nat.div_div_eq_div_mul] at h2
  simp only [Nat.reduceMul] at h2 h3
  omega

theorem and_15 (x : Nat) : x &&& 15 = x % 16 := by
  have h := Nat.and_pow_two_sub_one_eq_mod x 4
  simpa using h

set_option maxRecDepth 8000 in
theorem and_85_drop (y : Nat) (hy : y < 256) : y &&& 85 = (y % 128) &&& 85 := by
  revert y
  decide

set_option maxRecDepth 8000 in
theorem and_51_drop (y : Nat) (hy : y < 256) : y &&& 51 = (y % 64) &&& 51 := by
  revert y
  decide



/-! ## Lemmas on the steps of the population count -/

theorem swar_byte_facts : ∀ b, b < 256 →
    swar_nibbles (swar_pairs b) % 16 ≤ 4 ∧ swar_nibbles (swar_pairs b) / 16 ≤ 4 ∧
    swar_byte (swar_nibbles (swar_pairs b)) = popcountLoop 8 b := by
  decide!

theorem bytes_of_word (i : Nat) :
    i = i % 256 + 256 * (i / 256 % 256) + 65536 * (i / 65536 % 256)
      + 16777216 * (i / 16777216) := by
  omega

theorem shift_byte_85 (i : Nat) :
    i / 2 % 256 &&& 85 = i % 256 / 2 &&& 85 := by
  rw [and_85_drop _ (Nat.mod_lt _ (by decide))]
  congr 1
  omega

theorem and_half_le (b m : Nat) : b / 2 &&& m ≤ b :=
  Nat.le_trans Nat.and_le_left (Nat.div_le_self b 2)

theorem count_step1 (i : Nat) (hi : i < 4294967296) :
    sub_uint i ((i >>> 1) &&& 0x55555555) =
      swar_pairs (i % 256) + 256 * swar_pairs (i / 256 % 256)
        + 65536 * swar_pairs (i / 65536 % 256) + 16777216 * swar_pairs (i / 16777216) := by
  have h := and_bytes4 (i / 2) 1431655765
  simp only [Nat.reduceMod, Nat.reduceDiv] at h
  have c1 : i / 2 / 256 = i / 256 / 2 := by omega
  have c2 : i / 2 / 65536 = i / 65536 / 2 := by omega
  have c3 : i / 2 / 16777216 = i / 16777216 / 2 := by omega
  rw [c1, c2, c3, shift_byte_85 i, shift_byte_85 (i / 256), shift_byte_85 (i / 65536)] at h
  rw [Nat.shiftRight_eq_div_pow, Nat.pow_one, h]
  clear h c1 c2 c3
  have hw := bytes_of_word i
  have l0 := Nat.mod_lt i (show 0 < 256 by decide)
  have l1 := Nat.mod_lt (i / 256) (show 0 < 256 by decide)
  have l2 := Nat.mod_lt (i / 65536) (show 0 < 256 by decide)
  have l3 : i / 16777216 < 256 := by omega
  have a0 := and_half_le (i % 256) 85
  have a1 := and_half_le (i / 256 % 256) 85
  have a2 := and_half_le (i / 65536 % 256) 85
  have a3 := and_half_le (i / 16777216) 85
  unfold swar_pairs
  generalize i % 256 / 2 &&& 85 = x0 at *
  generalize i / 256 % 256 / 2 &&& 85 = x1 at *
  generalize i / 65536 % 256 / 2 &&& 85 = x2 at *
  generalize i / 16777216 / 2 &&& 85 = x3 at *
  generalize i % 256 = b0 at *
  generalize i / 256 % 256 = b1 at *
  generalize i / 65536 % 256 = b2 at *
  generalize i / 16777216 = b3 at *
  unfold sub_uint
  subst hw
  omega


theorem shift_byte_51 (x : Nat) :
    x / 4 % 256 &&& 51 = x % 256 / 4 &&& 51 := by
  rw [and_51_drop _ (Nat.mod_lt _ (by decide))]
  congr 1
  omega

theorem count_step2 (x : Nat) :
    ((x &&& 0x33333333) + ((x >>> 2) &&& 0x33333333)) % 4294967296 =
      swar_nibbles (x % 256) + 256 * swar_nibbles (x / 256 % 256)
        + 65536 * swar_nibbles (x / 65536 % 256)
        + 16777216 * swar_nibbles (x / 16777216) := by
  have h := and_bytes4 x 858993459
  have g := and_bytes4 (x / 4) 858993459
  simp only [Nat.reduceMod, Nat.reduceDiv] at h g
  have c1 : x / 4 / 256 = x / 256 / 4 := by omega
  have c2 : x / 4 / 65536 = x / 65536 / 4 := by omega
  have c3 : x / 4 / 16777216 = x / 16777216 / 4 := by omega
  rw [c1, c2, c3, shift_byte_51 x, shift_byte_51 (x / 256), shift_byte_51 (x / 65536)] at g
  have e2 : x >>> 2 = x / 4 := by rw [Nat.shiftRight_eq_div_pow]
  rw [e2, h, g]
  clear h g c1 c2 c3 e2
  have p0 : x % 256 &&& 51 ≤ 51 := Nat.and_le_right
  have p1 : x / 256 % 256 &&& 51 ≤ 51 := Nat.and_le_right
  have p2 : x / 65536 % 256 &&& 51 ≤ 51 := Nat.and_le_right
  have p3 : x / 16777216 &&& 51 ≤ 51 := Nat.and_le_right
  have q0 : x % 256 / 4 &&& 51 ≤ 51 := Nat.and_le_right
  have q1 : x / 256 % 256 / 4 &&& 51 ≤ 51 := Nat.and_le_right
  have q2 : x / 65536 % 256 / 4 &&& 51 ≤ 51 := Nat.and_le_right
  have q3 : x / 16777216 / 4 &&& 51 ≤ 51 := Nat.and_le_right
  unfold swar_nibbles
  generalize x % 256 &&& 51 = u0 at *
  generalize x / 256 % 256 &&& 51 = u1 at *
  generalize x / 65536 % 256 &&& 51 = u2 at *
  generalize x / 16777216 &&& 51 = u3 at *
  generalize x % 256 / 4 &&& 51 = v0 at *
  generalize x / 256 % 256 / 4 &&& 51 = v1 at *
  generalize x / 65536 % 256 / 4 &&& 51 = v2 at *
  generalize x / 16777216 / 4 &&& 51 = v3 at *
  omega

theorem nibble_sums (n0 n1 n2 n3 n4 n5 n6 n7 t : Nat)
    (h0 : n0 ≤ 4) (h1 : n1 ≤ 4) (h2 : n2 ≤ 4) (h3 : n3 ≤ 4)
    (h4 : n4 ≤ 4) (h5 : n5 ≤ 4) (h6 : n6 ≤ 4) (h7 : n7 ≤ 4)
    (ht : t = ((n0 + 16 * n1 + 256 * n2 + 4096 * n3 + 65536 * n4 + 1048576 * n5
      + 16777216 * n6 + 268435456 * n7)
      + (n0 + 16 * n1 + 256 * n2 + 4096 * n3 + 65536 * n4 + 1048576 * n5
      + 16777216 * n6 + 268435456 * n7) / 16) % 4294967296) :
    t % 256 % 16 = n0 + n1 ∧ t / 256 % 256 % 16 = n2 + n3 ∧
    t / 65536 % 256 % 16 = n4 + n5 ∧ t / 16777216 % 16 = n6 + n7 := by
  have e : t = ((n0 + n1) + 16 * (n1 + n2)) + 256 * (((n2 + n3) + 16 * (n3 + n4))
      + 256 * (((n4 + n5) + 16 * (n5 + n6)) + 256 * ((n6 + n7) + 16 * n7))) := by
    omega
  clear ht
  have m0 : ((n0 + n1) + 16 * (n1 + n2)) % 16 = n0 + n1 := by omega
  have m1 : ((n2 + n3) + 16 * (n3 + n4)) % 16 = n2 + n3 := by omega
  have m2 : ((n4 + n5) + 16 * (n5 + n6)) % 16 = n4 + n5 := by omega
  have m3 : ((n6 + n7) + 16 * n7) % 16 = n6 + n7 := by omega
  have b0 : (n0 + n1) + 16 * (n1 + n2) < 256 := by omega
  have b1 : (n2 + n3) + 16 * (n3 + n4) < 256 := by omega
  have b2 : (n4 + n5) + 16 * (n5 + n6) < 256 := by omega
  have b3 : (n6 + n7) + 16 * n7 < 256 := by omega
  rw [← m0, ← m1, ← m2, ← m3]
  generalize (n0 + n1) + 16 * (n1 + n2) = L0 at *
  generalize (n2 + n3) + 16 * (n3 + n4) = L1 at *
  generalize (n4 + n5) + 16 * (n5 + n6) = L2 at *
  generalize (n6 + n7) + 16 * n7 = L3 at *
  subst e
  refine ⟨?_, ?_, ?_, ?_⟩
  · congr 1; omega
  · congr 1; omega
  · congr 1; omega
  · congr 1; omega

theorem count_step3 (d0 d1 d2 d3 : Nat)
    (l0 : d0 % 16 ≤ 4) (u0 : d0 / 16 ≤ 4) (l1 : d1 % 16 ≤ 4) (u1 : d1 / 16 ≤ 4)
    (l2 : d2 % 16 ≤ 4) (u2 : d2 / 16 ≤ 4) (l3 : d3 % 16 ≤ 4) (u3 : d3 / 16 ≤ 4) :
    (((d0 + 256 * d1 + 65536 * d2 + 16777216 * d3)
        + ((d0 + 256 * d1 + 65536 * d2 + 16777216 * d3) >>> 4)) % 4294967296)
      &&& 0x0F0F0F0F =
      swar_byte d0 + 256 * swar_byte d1 + 65536 * swar_byte d2
        + 16777216 * swar_byte d3 := by
  have e4 : (d0 + 256 * d1 + 65536 * d2 + 16777216 * d3) >>> 4
      = (d0 + 256 * d1 + 65536 * d2 + 16777216 * d3) / 16 := by
    rw [Nat.shiftRight_eq_div_pow]
  rw [e4]
  have ex : d0 + 256 * d1 + 65536 * d2 + 16777216 * d3
      = d0 % 16 + 16 * (d0 / 16) + 256 * (d1 % 16) + 4096 * (d1 / 16)
        + 65536 * (d2 % 16) + 1048576 * (d2 / 16) + 16777216 * (d3 % 16)
        + 268435456 * (d3 / 16) := by
    omega
  rw [ex]
  obtain ⟨t0, t1, t2, t3⟩ := nibble_sums (d0 % 16) (d0 / 16) (d1 % 16) (d1 / 16)
    (d2 % 16) (d2 / 16) (d3 % 16) (d3 / 16) _ l0 u0 l1 u1 l2 u2 l3 u3 rfl
  rw [and_bytes4 _ 252645135]
  simp only [Nat.reduceMod, Nat.reduceDiv]
  rw [and_15, and_15, and_15, and_15, t0, t1, t2, t3]
  rfl

theorem count_step4 (e0 e1 e2 e3 : Nat) (h0 : e0 ≤ 8) (h1 : e1 ≤ 8) (h2 : e2 ≤ 8)
    (h3 : e3 ≤ 8) :
    (((e0 + 256 * e1 + 65536 * e2 + 16777216 * e3) * 0x01010101) % 4294967296) >>> 24
      = e0 + e1 + e2 + e3 := by
  have hm : (e0 + 256 * e1 + 65536 * e2 + 16777216 * e3) * 16843009
      = (e0 + 256 * (e0 + e1) + 65536 * (e0 + e1 + e2))
        + 16777216 * (e0 + e1 + e2 + e3)
        + 4294967296 * (e1 + 257 * e2 + 65793 * e3) := by
    omega
  have hl : e0 + 256 * (e0 + e1) + 65536 * (e0 + e1 + e2) < 16777216 := by omega
  have hs : e0 + e1 + e2 + e3 < 256 := by omega
  rw [Nat.shiftRight_eq_div_pow, hm]
  simp only [Nat.reducePow]
  generalize e0 + 256 * (e0 + e1) + 65536 * (e0 + e1 + e2) = low at *
  generalize e0 + e1 + e2 + e3 = sum at *
  generalize e1 + 257 * e2 + 65793 * e3 = hi at *
  clear hm h0 h1 h2 h3
  omega


theorem bytes_pack (c0 c1 c2 c3 : Nat) (h0 : c0 < 256) (h1 : c1 < 256) (h2 : c2 < 256) :
    (c0 + 256 * c1 + 65536 * c2 + 16777216 * c3) % 256 = c0 ∧
    (c0 + 256 * c1 + 65536 * c2 + 16777216 * c3) / 256 % 256 = c1 ∧
    (c0 + 256 * c1 + 65536 * c2 + 16777216 * c3) / 65536 % 256 = c2 ∧
    (c0 + 256 * c1 + 65536 * c2 + 16777216 * c3) / 16777216 = c3 := by
  refine ⟨?_, ?_, ?_, ?_⟩ <;> omega

theorem popcountLoop_add : ∀ (m n u : Nat),
    popcountLoop (m + n) u = popcountLoop m u + popcountLoop n (u >>> m) := by
  intro m
  induction m with
  | zero => intro n u; simp [popcountLoop]
  | succ m ih =>
    intro n u
    have e : m + 1 + n = (m + n) + 1 := by omega
    rw [e]
    show (u &&& 1) + popcountLoop (m + n) (u >>> 1)
      = (u &&& 1) + popcountLoop m (u >>> 1) + popcountLoop n (u >>> (m + 1))
    rw [ih n (u >>> 1), ← Nat.shiftRight_add, Nat.add_comm 1 m]
    omega

theorem popcountLoop_mod : ∀ (m u : Nat),
    popcountLoop m (u % 2 ^ m) = popcountLoop m u := by
  intro m
  induction m with
  | zero => intro u; rfl
  | succ m ih =>
    intro u
    show (u % 2 ^ (m + 1) &&& 1) + popcountLoop m ((u % 2 ^ (m + 1)) >>> 1)
      = (u &&& 1) + popcountLoop m (u >>> 1)
    have e1 : u % 2 ^ (m + 1) &&& 1 = u &&& 1 := by
      rw [Nat.and_one_is_mod, Nat.and_one_is_mod, pow_succ,
        Nat.mod_mul_left_mod]
    have e2 : (u % 2 ^ (m + 1)) >>> 1 = (u >>> 1) % 2 ^ m := by
      rw [Nat.shiftRight_eq_div_pow, Nat.shiftRight_eq_div_pow, Nat.pow_one, pow_succ,
        Nat.mul_comm, Nat.mod_mul_right_div_self]
    rw [e1, e2, ih]

theorem popcount_bytes (i : Nat) :
    popcount_naive i = popcountLoop 8 (i % 256) + popcountLoop 8 (i / 256 % 256)
      + popcountLoop 8 (i / 65536 % 256) + popcountLoop 8 (i / 16777216) := by
  unfold popcount_naive
  have h1 := popcountLoop_add 8 24 i
  have h2 := popcountLoop_add 8 16 (i >>> 8)
  have h3 := popcountLoop_add 8 8 (i >>> 8 >>> 8)
  have m0 := popcountLoop_mod 8 i
  have m1 := popcountLoop_mod 8 (i >>> 8)
  have m2 := popcountLoop_mod 8 (i >>> 8 >>> 8)
  have s1 : i >>> 8 = i / 256 := by rw [Nat.shiftRight_eq_div_pow]
  have s2 : (i / 256) >>> 8 = i / 65536 := by
    rw [Nat.shiftRight_eq_div_pow, Nat.div_div_eq_div_mul]
  have s3 : (i / 65536) >>> 8 = i / 16777216 := by
    rw [Nat.shiftRight_eq_div_pow, Nat.div_div_eq_div_mul]
  rw [s1] at h1 h2 h3 m1 m2
  rw [s2] at h2 h3 m2
  rw [s3] at h3
  simp only [Nat.reducePow, Nat.reduceAdd] at h1 h2 h3 m0 m1 m2
  rw [m0, m1, m2]
  omega



/-! ## Lemmas on the highest order bit -/

theorem toInt_small (n : Nat) (hn : n < 2147483648) : toInt n = (n : Int) := by
  unfold toInt; split <;> omega

theorem sub_size_32 (r : Nat) (hr : r < 32) : sub_size (4 * 8) r = 32 - r := by
  unfold sub_size; omega

theorem bitscan_reverse_uint_eq (n : Nat) (h0 : 0 < n) (hn : n < 2147483648) :
    bitscan_reverse_uint n = Res.ok (builtin_clz n) := by
  have hne : (n : Int) ≠ 0 := by omega
  obtain ⟨hr, _⟩ := clz_bit_set n h0 (by omega)
  unfold bitscan_reverse_uint
  rw [toInt_small n hn, bitscan_reverse_i_eq _ hne, Res.ok_bind, toUInt_natCast n (by omega),
    Res.pure_eq, toUInt_natCast _ (by omega)]

/-- Below `2^31` the reverse scan finds at least one leading zero. -/
theorem clz_pos_of_lt (n : Nat) (h0 : 0 < n) (hn : n < 2147483648) : 1 ≤ builtin_clz n := by
  obtain ⟨hr, hq⟩ := clz_bit_set n h0 (by omega)
  by_contra hc
  have hz : builtin_clz n = 0 := by omega
  rw [hz] at hq
  have : n / 2 ^ 31 = 0 := Nat.div_eq_of_lt (by simpa using hn)
  simp at hq
  omega

/-- Value of `highest_order_bit_uint` on a nonzero word below `2^31`. -/
theorem highest_order_bit_uint_eq (n : Nat) (h0 : 0 < n) (hn : n < 2147483648) :
    highest_order_bit_uint n = Res.ok (2 ^ (32 - builtin_clz n)) := by
  obtain ⟨hr, _⟩ := clz_bit_set n h0 (by omega)
  have h1 := clz_pos_of_lt n h0 hn
  have hk : 32 - builtin_clz n < 32 := by omega
  have hne : n ≠ 0 := by omega
  unfold highest_order_bit_uint
  rw [if_neg hne, bitscan_reverse_uint_eq n h0 hn, Res.ok_bind, sub_size_32 _ hr,
    shl_int_one _ hk, Res.ok_bind, Res.pure_eq, toUInt_toInt,
    Nat.mod_eq_of_lt (two_pow_lt_word _ hk)]
  rfl

theorem toUShort_natCast (m : Nat) (hm : m < 65536) : toUShort (m : Int) = m := by
  unfold toUShort; omega

/-- One step of the OR-shift cascade doubles the run of set bits below the top bit. -/
theorem smear_step (p w x : Nat) (hx : x < 2 ^ (p + 1))
    (ht : ∀ j, j ≤ p → p < j + w → x.testBit j = true) :
    (x ||| (x >>> w)) < 2 ^ (p + 1) ∧
    ∀ j, j ≤ p → p < j + 2 * w → (x ||| (x >>> w)).testBit j = true := by
  constructor
  · apply Nat.or_lt_two_pow hx
    rw [Nat.shiftRight_eq_div_pow]
    exact Nat.lt_of_le_of_lt (Nat.div_le_self _ _) hx
  · intro j hj hjw
    rw [Nat.testBit_or, Nat.testBit_shiftRight]
    by_cases h : p < j + w
    · rw [ht j hj h]; rfl
    · rw [ht (w + j) (by omega) (by omega)]; simp

theorem eq_ones_of_testBit (p x : Nat) (hx : x < 2 ^ (p + 1))
    (ht : ∀ j, j ≤ p → x.testBit j = true) : x = 2 ^ (p + 1) - 1 := by
  apply Nat.eq_of_testBit_eq
  intro j
  rw [Nat.testBit_two_pow_sub_one]
  by_cases h : j < p + 1
  · rw [ht j (by omega)]; simp [h]
  · rw [testBit_false_above x p j hx (by omega)]; simp [h]

/-- The cascade of `highest_order_bit_s` fills every bit up to the highest set one. -/
theorem smear_all (p n : Nat) (hp : p ≤ 15) (lo : 2 ^ p ≤ n) (hi : n < 2 ^ (p + 1)) :
    let n1 := n ||| (n >>> 1)
    let n2 := n1 ||| (n1 >>> 2)
    let n3 := n2 ||| (n2 >>> 4)
    let n4 := n3 ||| (n3 >>> 8)
    n1 < 2 ^ (p + 1) ∧ n2 < 2 ^ (p + 1) ∧ n3 < 2 ^ (p + 1) ∧ n4 = 2 ^ (p + 1) - 1 := by
  intro n1 n2 n3 n4
  have t0 : ∀ j, j ≤ p → p < j + 1 → n.testBit j = true := by
    intro j hj hj1
    have e : j = p := by omega
    rw [e]
    exact testBit_of_bit n p (by rw [testBit_of_range n p lo hi])
  obtain ⟨b1, t1⟩ := smear_step p 1 n hi t0
  obtain ⟨b2, t2⟩ := smear_step p 2 n1 b1 t1
  obtain ⟨b3, t3⟩ := smear_step p 4 n2 b2 t2
  obtain ⟨b4, t4⟩ := smear_step p 8 n3 b3 t3
  exact ⟨b1, b2, b3, eq_ones_of_testBit p n4 b4 (fun j hj => t4 j hj (by omega))⟩

/-- Value of `highest_order_bit_s` on a word whose highest set bit is bit `p`. -/
theorem highest_order_bit_s_eq (p n : Nat) (hp : p ≤ 15) (lo : 2 ^ p ≤ n)
    (hi : n < 2 ^ (p + 1)) : highest_order_bit_s n = 2 ^ p := by
  obtain ⟨b1, b2, b3, e4⟩ := smear_all p n hp lo hi
  have hw : 2 ^ (p + 1) ≤ 65536 := by
    have h : (2 : Nat) ^ (p + 1) ≤ 2 ^ 16 := Nat.pow_le_pow_right (by decide) (by omega)
    simpa using h
  have hpos : 0 < 2 ^ p := Nat.pow_pos (by decide)
  have hq : 2 ^ (p + 1) - 1 < 65536 := by omega
  unfold highest_order_bit_s
  simp only []
  rw [toUShort_natCast (n ||| (n >>> 1)) (by omega)]
  rw [toUShort_natCast ((n ||| (n >>> 1)) ||| ((n ||| (n >>> 1)) >>> 2)) (by omega)]
  rw [toUShort_natCast (((n ||| (n >>> 1)) ||| ((n ||| (n >>> 1)) >>> 2))
    ||| (((n ||| (n >>> 1)) ||| ((n ||| (n >>> 1)) >>> 2)) >>> 4)) (by omega)]
  rw [e4, toUShort_natCast _ hq, Nat.shiftRight_eq_div_pow, Nat.pow_one]
  clear e4 b1 b2 b3 hq
  rw [pow_succ] at hw ⊢
  unfold toUShort
  generalize 2 ^ p = q at *
  omega



/-! ## Lemmas on the `_MSC_VER` path -/

theorem scanUp_eq : ∀ (fuel k u : Nat), scanUp fuel k u = k + ctzLoop fuel (u / 2 ^ k) := by
  intro fuel
  induction fuel with
  | zero => intro k u; rfl
  | succ fuel ih =>
    intro k u
    unfold scanUp ctzLoop
    rw [Nat.testBit_to_div_mod]
    by_cases h : u / 2 ^ k % 2 = 1
    · simp [h]
    · have e : u / 2 ^ k / 2 = u / 2 ^ (k + 1) := by
        rw [Nat.div_div_eq_div_mul, pow_succ]
      simp only [h, decide_False, if_false, Bool.false_eq_true]
      rw [ih (k + 1) u, e]
      omega

theorem scanDown_add_clzLoop : ∀ (n u : Nat), 0 < u → u < 2 ^ n →
    scanDown n u + clzLoop n u + 1 = n := by
  intro n
  induction n with
  | zero => intro u h0 h1; simp at h1; omega
  | succ n ih =>
    intro u h0 h1
    unfold scanDown clzLoop
    rw [Nat.testBit_to_div_mod]
    by_cases h : u / 2 ^ n % 2 = 1
    · simp [h]
    · have hq : u / 2 ^ n < 2 := by
        rw [Nat.div_lt_iff_lt_mul (Nat.pow_pos (by decide))]
        rw [pow_succ] at h1; omega
      have hz : u / 2 ^ n = 0 := by
        generalize u / 2 ^ n = q at hq h
        omega
      have hlt : u < 2 ^ n := by
        rcases Nat.lt_or_ge u (2 ^ n) with h2 | h2
        · exact h2
        · have := Nat.div_pos h2 (Nat.pow_pos (by decide))
          rw [hz] at this
          exact absurd this (by decide)
      simp only [h, decide_False, if_false, Bool.false_eq_true]
      have := ih u h0 hlt
      omega

theorem ctzLoop_le : ∀ (n u : Nat), ctzLoop n u ≤ n := by
  intro n
  induction n with
  | zero => intro u; exact Nat.le_refl 0
  | succ n ih =>
    intro u
    unfold ctzLoop
    split
    · omega
    · have := ih (u / 2); omega

/-- Under `_MSC_VER` the forward scan returns the same value as `__builtin_ctz`. -/
theorem bitscan_forward_i_msvc_eq (x : Int) (h0 : x ≠ 0) :
    bitscan_forward_i_msvc x = bitscan_forward_i x := by
  have e : BitScanForward (toUInt x) = builtin_ctz (toUInt x) := by
    unfold BitScanForward builtin_ctz
    rw [scanUp_eq]; simp
  have hle := ctzLoop_le 32 (toUInt x)
  rw [bitscan_forward_i_eq x h0]
  simp only [bitscan_forward_i_msvc, BLI_assert, h0, ne_eq, not_false_eq_true, decide_True,
    if_true, Res.ok_bind, Res.pure_eq, e]
  rw [toInt_small _ (by unfold builtin_ctz; omega)]

/-- Under `_MSC_VER` the reverse scan returns `31 - r`, where `r` is the leading-zero
count returned by the other path. -/
theorem bitscan_reverse_i_msvc_eq (x : Int) (hx : IsInt32 x) (h0 : x ≠ 0) :
    bitscan_reverse_i_msvc x = Res.ok ((31 - builtin_clz (toUInt x) : Nat) : Int) := by
  have hpos := toUInt_pos x hx h0
  have hlt : toUInt x < 2 ^ 32 := by simpa using toUInt_lt x
  have hs := scanDown_add_clzLoop 32 (toUInt x) hpos hlt
  have e : BitScanReverse (toUInt x) = 31 - builtin_clz (toUInt x) := by
    unfold BitScanReverse builtin_clz; omega
  simp only [bitscan_reverse_i_msvc, BLI_assert, h0, ne_eq, not_false_eq_true, decide_True,
    if_true, Res.ok_bind, Res.pure_eq, e]
  rw [toInt_small _ (by omega)]



/-! ## Lemmas on the unsigned variants -/

theorem toInt_ne_zero (a : Nat) (h0 : 0 < a) (ha : a < 4294967296) : toInt a ≠ 0 := by
  unfold toInt; split <;> omega

theorem toUInt_toInt_of_lt (a : Nat) (ha : a < 4294967296) : toUInt (toInt a) = a := by
  rw [toUInt_toInt]; exact Nat.mod_eq_of_lt ha

theorem builtin_ctz_lt (u : Nat) (h0 : 0 < u) (hu : u < 4294967296) : builtin_ctz u < 32 := by
  have hlt : u < 2 ^ 32 := by simpa using hu
  exact (ctzLoop_spec 32 u h0 hlt).1

theorem bitscan_forward_uint_eq (a : Nat) (h0 : 0 < a) (ha : a < 4294967296) :
    bitscan_forward_uint a = Res.ok (builtin_ctz a) := by
  have hk := builtin_ctz_lt a h0 ha
  unfold bitscan_forward_uint
  rw [bitscan_forward_i_eq _ (toInt_ne_zero a h0 ha), Res.ok_bind, toUInt_toInt_of_lt a ha,
    Res.pure_eq, toUInt_natCast _ (by omega)]

theorem bitscan_reverse_uint_eq_word (a : Nat) (h0 : 0 < a) (ha : a < 4294967296) :
    bitscan_reverse_uint a = Res.ok (builtin_clz a) := by
  obtain ⟨hr, _⟩ := clz_bit_set a h0 ha
  unfold bitscan_reverse_uint
  rw [bitscan_reverse_i_eq _ (toInt_ne_zero a h0 ha), Res.ok_bind, toUInt_toInt_of_lt a ha,
    Res.pure_eq, toUInt_natCast _ (by omega)]

theorem bitscan_forward_clear_uint_eq (a : Nat) (h0 : 0 < a) (ha : a < 4294967296) :
    bitscan_forward_clear_uint a = Res.ok (builtin_ctz a, a - 2 ^ builtin_ctz a) := by
  have hk := builtin_ctz_lt a h0 ha
  unfold bitscan_forward_clear_uint
  rw [bitscan_forward_clear_i_eq _ (isInt32_toInt a) (toInt_ne_zero a h0 ha), Res.ok_bind,
    toUInt_toInt_of_lt a ha, Res.pure_eq]
  show Res.ok (toUInt (builtin_ctz a : Int), toUInt (toInt (a - 2 ^ builtin_ctz a))) = _
  rw [toUInt_natCast _ (by omega), toUInt_toInt_sub _ _ ha]

theorem bitscan_reverse_clear_uint_eq (a : Nat) (h0 : 0 < a) (ha : a < 4294967296) :
    bitscan_reverse_clear_uint a
      = Res.ok (builtin_clz a, a - 2 ^ (31 - builtin_clz a)) := by
  obtain ⟨hr, _⟩ := clz_bit_set a h0 ha
  unfold bitscan_reverse_clear_uint
  rw [bitscan_reverse_clear_i_eq _ (isInt32_toInt a) (toInt_ne_zero a h0 ha), Res.ok_bind,
    toUInt_toInt_of_lt a ha, Res.pure_eq]
  show Res.ok (toUInt (builtin_clz a : Int), toUInt (toInt (a - 2 ^ (31 - builtin_clz a)))) = _
  rw [toUInt_natCast _ (by omega), toUInt_toInt_sub _ _ ha]

/-- Bounds on a nonzero word given by the reverse scan: with `p = 31 - clz`, the word
lies in `[2^p, 2^(p+1))`. -/
theorem clz_bounds (u : Nat) (h0 : 0 < u) (hu : u < 4294967296) :
    builtin_clz u < 32 ∧ 2 ^ (31 - builtin_clz u) ≤ u ∧ u < 2 ^ (31 - builtin_clz u + 1) := by
  have hlt : u < 2 ^ 32 := by simpa using hu
  obtain ⟨hr, lo, hi⟩ := clzLoop_spec 32 u h0 hlt
  have e0 : 32 - 1 - clzLoop 32 u = 31 - builtin_clz u := rfl
  have e1 : 32 - clzLoop 32 u = 31 - builtin_clz u + 1 := by
    unfold builtin_clz; omega
  rw [e0] at lo
  rw [e1] at hi
  exact ⟨hr, lo, hi⟩

/-- Facts on a nonzero word given by the forward scan. -/
theorem ctz_facts (u : Nat) (h0 : 0 < u) (hu : u < 4294967296) :
    builtin_ctz u < 32 ∧ u / 2 ^ builtin_ctz u % 2 = 1 ∧ u % 2 ^ builtin_ctz u = 0 := by
  have hlt : u < 2 ^ 32 := by simpa using hu
  exact ctzLoop_spec 32 u h0 hlt

theorem testBit_false_below_ctz (u j : Nat) (h0 : 0 < u) (hu : u < 4294967296)
    (hj : j < builtin_ctz u) : u.testBit j = false := by
  obtain ⟨_, _, hm⟩ := ctz_facts u h0 hu
  have h := Nat.testBit_mod_two_pow u (builtin_ctz u) j
  rw [hm] at h
  simpa [hj] using h.symm

/-- A word whose top bit is set has no leading zero. -/
theorem builtin_clz_top (u : Nat) (lo : 2147483648 ≤ u) (hu : u < 4294967296) :
    builtin_clz u = 0 := by
  have h : u / 2 ^ 31 % 2 = 1 := by
    have e : u / 2 ^ 31 = 1 := by
      apply Nat.div_eq_of_lt_le <;> simp <;> omega
    rw [e]
  show (if u / 2 ^ 31 % 2 = 1 then 0 else 1 + clzLoop 31 u) = 0
  rw [if_pos h]

/-- On every word with bit 31 set `highest_order_bit_uint` shifts by the full width. -/
theorem highest_order_bit_uint_fault (n : Nat) (lo : 2147483648 ≤ n) (hn : n < 4294967296) :
    highest_order_bit_uint n = Res.fault Fault.shiftCount := by
  have hne : n ≠ 0 := by omega
  unfold highest_order_bit_uint
  rw [if_neg hne, bitscan_reverse_uint_eq_word n (by omega) hn, builtin_clz_top n lo hn]
  rfl

theorem popcountLoop_eq_zero : ∀ (w u : Nat), u < 2 ^ w → popcountLoop w u = 0 → u = 0 := by
  intro w
  induction w with
  | zero => intro u hu _; simp at hu; exact hu
  | succ w ih =>
    intro u hu h
    have h' : (u &&& 1) + popcountLoop w (u >>> 1) = 0 := h
    rw [Nat.and_one_is_mod, Nat.shiftRight_eq_div_pow, Nat.pow_one] at h'
    rw [pow_succ] at hu
    have hz := ih (u / 2) (by omega) (by omega)
    omega



/-! ## Lemmas on the list of set bits and on the loops -/

theorem mem_set_bits_up (u j : Nat) :
    j ∈ set_bits_up u ↔ j < 32 ∧ u.testBit j = true := by
  unfold set_bits_up
  rw [List.mem_filter, List.mem_range]

theorem set_bits_up_sorted (u : Nat) : (set_bits_up u).Pairwise (fun a b => a < b) :=
  List.Pairwise.filter _ (List.pairwise_lt_range 32)

/-- A strictly increasing list holding exactly the set-bit positions is the list of set
bits. -/
theorem set_bits_up_unique (u : Nat) (l : List Nat)
    (hs : l.Pairwise (fun a b => a < b))
    (hm : ∀ j, j ∈ l ↔ j < 32 ∧ u.testBit j = true) : set_bits_up u = l := by
  have hs2 := set_bits_up_sorted u
  apply List.eq_of_perm_of_sorted (r := fun a b : Nat => a < b) _ hs2 hs
  rw [List.perm_ext_iff_of_nodup hs2.nodup hs.nodup]
  intro j
  rw [mem_set_bits_up, hm]

theorem testBit_lt_32 (u j : Nat) (hu : u < 4294967296) (h : u.testBit j = true) : j < 32 := by
  by_contra hc
  have hlt : u < 2 ^ (31 + 1) := by simpa using hu
  have := testBit_false_above u 31 j hlt (by omega)
  rw [h] at this
  cases this

theorem set_bits_up_clear_lowest (u : Nat) (h0 : 0 < u) (hu : u < 4294967296) :
    set_bits_up u = builtin_ctz u :: set_bits_up (u - 2 ^ builtin_ctz u) := by
  obtain ⟨hk, hb, _⟩ := ctz_facts u h0 hu
  have tb := testBit_sub_two_pow (builtin_ctz u) u
  apply set_bits_up_unique
  · rw [List.pairwise_cons]
    refine ⟨?_, set_bits_up_sorted _⟩
    intro a ha
    rw [mem_set_bits_up, tb a hb] at ha
    obtain ⟨_, h2⟩ := ha
    simp only [Bool.and_eq_true, decide_eq_true_eq] at h2
    by_contra hc
    have := testBit_false_below_ctz u a h0 hu (by omega)
    rw [h2.1] at this
    cases this
  · intro j
    rw [List.mem_cons, mem_set_bits_up, tb j hb]
    simp only [Bool.and_eq_true, decide_eq_true_eq]
    constructor
    · rintro (h | h)
      · rw [h]; exact ⟨hk, testBit_of_bit _ _ hb⟩
      · exact ⟨h.1, h.2.1⟩
    · intro h
      by_cases e : j = builtin_ctz u
      · exact Or.inl e
      · exact Or.inr ⟨h.1, h.2, e⟩

theorem set_bits_up_clear_highest (u : Nat) (h0 : 0 < u) (hu : u < 4294967296) :
    set_bits_up u
      = set_bits_up (u - 2 ^ (31 - builtin_clz u)) ++ [31 - builtin_clz u] := by
  obtain ⟨hr, lo, hi⟩ := clz_bounds u h0 hu
  have hb : u / 2 ^ (31 - builtin_clz u) % 2 = 1 := by
    rw [testBit_of_range u _ lo hi]
  have tb := testBit_sub_two_pow (31 - builtin_clz u) u
  apply set_bits_up_unique
  · rw [List.pairwise_append]
    refine ⟨set_bits_up_sorted _, List.pairwise_singleton _ _, ?_⟩
    intro a ha b hb2
    rw [List.mem_singleton] at hb2
    rw [mem_set_bits_up, tb a hb] at ha
    obtain ⟨_, h2⟩ := ha
    simp only [Bool.and_eq_true, decide_eq_true_eq] at h2
    rw [hb2]
    by_contra hc
    have := testBit_false_above u _ a hi (by omega)
    rw [h2.1] at this
    cases this
  · intro j
    rw [List.mem_append, List.mem_singleton, mem_set_bits_up, tb j hb]
    simp only [Bool.and_eq_true, decide_eq_true_eq]
    constructor
    · rintro (h | h)
      · exact ⟨h.1, h.2.1⟩
      · rw [h]; exact ⟨by omega, testBit_of_bit _ _ hb⟩
    · intro h
      by_cases e : j = 31 - builtin_clz u
      · exact Or.inr e
      · exact Or.inl ⟨h.1, h.2, e⟩

theorem popcount_pos (u : Nat) (h0 : 0 < u) (hu : u < 4294967296) :
    popcount_naive (u - 2 ^ builtin_ctz u) + 1 = popcount_naive u ∧
    popcount_naive (u - 2 ^ (31 - builtin_clz u)) + 1 = popcount_naive u := by
  obtain ⟨hk, hb, _⟩ := ctz_facts u h0 hu
  obtain ⟨hr, lo, hi⟩ := clz_bounds u h0 hu
  have hb2 : u / 2 ^ (31 - builtin_clz u) % 2 = 1 := by
    rw [testBit_of_range u _ lo hi]
  exact ⟨popcountLoop_clear_bit 32 u _ hk hb, popcountLoop_clear_bit 32 u _ (by omega) hb2⟩

theorem forward_clear_loop_zero (fuel : Nat) : forward_clear_loop fuel 0 = Res.ok (some []) := by
  cases fuel <;> rfl

theorem reverse_clear_loop_zero (fuel : Nat) : reverse_clear_loop fuel 0 = Res.ok (some []) := by
  cases fuel <;> rfl

theorem forward_clear_loop_step (fuel : Nat) (x : Int) (hx : IsInt32 x) (h0 : x ≠ 0) :
    forward_clear_loop (fuel + 1) x =
      (forward_clear_loop fuel (toInt (toUInt x - 2 ^ builtin_ctz (toUInt x)))).bind
        (fun rest => Res.ok (rest.map (fun l => (builtin_ctz (toUInt x) : Int) :: l))) := by
  show (if x = 0 then Res.ok (some []) else _) = _
  rw [if_neg h0, bitscan_forward_clear_i_eq x hx h0]
  rfl

theorem reverse_clear_loop_step (fuel : Nat) (x : Int) (hx : IsInt32 x) (h0 : x ≠ 0) :
    reverse_clear_loop (fuel + 1) x =
      (reverse_clear_loop fuel (toInt (toUInt x - 2 ^ (31 - builtin_clz (toUInt x))))).bind
        (fun rest => Res.ok (rest.map (fun l => (builtin_clz (toUInt x) : Int) :: l))) := by
  show (if x = 0 then Res.ok (some []) else _) = _
  rw [if_neg h0, bitscan_reverse_clear_i_eq x hx h0]
  rfl



theorem forward_clear_loop_spec : ∀ (fuel : Nat) (x : Int), IsInt32 x →
    popcount_naive (toUInt x) ≤ fuel →
    forward_clear_loop fuel x
      = Res.ok (some ((set_bits_up (toUInt x)).map (fun j : Nat => (j : Int)))) ∧
    (set_bits_up (toUInt x)).length = popcount_naive (toUInt x) := by
  have zero_case : ∀ fuel : Nat, forward_clear_loop fuel 0
      = Res.ok (some ((set_bits_up (toUInt 0)).map (fun j : Nat => (j : Int)))) ∧
      (set_bits_up (toUInt 0)).length = popcount_naive (toUInt 0) := by
    intro fuel
    exact ⟨forward_clear_loop_zero fuel, by decide⟩
  intro fuel
  induction fuel with
  | zero =>
    intro x hx hp
    by_cases h0 : x = 0
    · rw [h0]; exact zero_case 0
    · have := (popcount_pos (toUInt x) (toUInt_pos x hx h0) (toUInt_lt x)).1
      omega
  | succ fuel ih =>
    intro x hx hp
    by_cases h0 : x = 0
    · rw [h0]; exact zero_case (fuel + 1)
    · have hpos := toUInt_pos x hx h0
      have hu := toUInt_lt x
      have hpc := (popcount_pos (toUInt x) hpos hu).1
      have hx1 := toUInt_toInt_sub (toUInt x) (2 ^ builtin_ctz (toUInt x)) hu
      have h := ih (toInt (toUInt x - 2 ^ builtin_ctz (toUInt x))) (isInt32_toInt _)
        (by rw [hx1]; omega)
      rw [hx1] at h
      rw [forward_clear_loop_step fuel x hx h0, h.1, set_bits_up_clear_lowest (toUInt x) hpos hu]
      refine ⟨rfl, ?_⟩
      rw [List.length_cons, h.2]
      exact hpc

theorem forward_clear_loop_short : ∀ (fuel : Nat) (x : Int), IsInt32 x →
    fuel < popcount_naive (toUInt x) → forward_clear_loop fuel x = Res.ok none := by
  have p0 : popcount_naive (toUInt 0) = 0 := by decide
  intro fuel
  induction fuel with
  | zero =>
    intro x hx hp
    by_cases h0 : x = 0
    · rw [h0, p0] at hp; omega
    · show (if x = 0 then Res.ok (some []) else Res.ok none) = _
      rw [if_neg h0]
  | succ fuel ih =>
    intro x hx hp
    by_cases h0 : x = 0
    · rw [h0, p0] at hp; omega
    · have hpos := toUInt_pos x hx h0
      have hu := toUInt_lt x
      have hpc := (popcount_pos (toUInt x) hpos hu).1
      have hx1 := toUInt_toInt_sub (toUInt x) (2 ^ builtin_ctz (toUInt x)) hu
      have h := ih (toInt (toUInt x - 2 ^ builtin_ctz (toUInt x))) (isInt32_toInt _)
        (by rw [hx1]; omega)
      rw [forward_clear_loop_step fuel x hx h0, h]
      rfl

theorem reverse_clear_loop_spec : ∀ (fuel : Nat) (x : Int), IsInt32 x →
    popcount_naive (toUInt x) ≤ fuel →
    reverse_clear_loop fuel x
      = Res.ok (some ((set_bits_up (toUInt x)).reverse.map
          (fun p : Nat => ((31 - p : Nat) : Int)))) ∧
    (set_bits_up (toUInt x)).length = popcount_naive (toUInt x) := by
  have zero_case : ∀ fuel : Nat, reverse_clear_loop fuel 0
      = Res.ok (some ((set_bits_up (toUInt 0)).reverse.map
          (fun p : Nat => ((31 - p : Nat) : Int)))) ∧
      (set_bits_up (toUInt 0)).length = popcount_naive (toUInt 0) := by
    intro fuel
    exact ⟨reverse_clear_loop_zero fuel, by decide⟩
  intro fuel
  induction fuel with
  | zero =>
    intro x hx hp
    by_cases h0 : x = 0
    · rw [h0]; exact zero_case 0
    · have := (popcount_pos (toUInt x) (toUInt_pos x hx h0) (toUInt_lt x)).1
      omega
  | succ fuel ih =>
    intro x hx hp
    by_cases h0 : x = 0
    · rw [h0]; exact zero_case (fuel + 1)
    · have hpos := toUInt_pos x hx h0
      have hu := toUInt_lt x
      have hpc := (popcount_pos (toUInt x) hpos hu).2
      obtain ⟨hr, _, _⟩ := clz_bounds (toUInt x) hpos hu
      have hx1 := toUInt_toInt_sub (toUInt x) (2 ^ (31 - builtin_clz (toUInt x))) hu
      have h := ih (toInt (toUInt x - 2 ^ (31 - builtin_clz (toUInt x)))) (isInt32_toInt _)
        (by rw [hx1]; omega)
      rw [hx1] at h
      have e : 31 - (31 - builtin_clz (toUInt x)) = builtin_clz (toUInt x) := by omega
      rw [reverse_clear_loop_step fuel x hx h0, h.1,
        set_bits_up_clear_highest (toUInt x) hpos hu, List.reverse_append, List.reverse_singleton,
        List.singleton_append, List.map_cons, e]
      refine ⟨rfl, ?_⟩
      rw [List.length_append, List.length_singleton, h.2]
      exact hpc

theorem reverse_clear_loop_short : ∀ (fuel : Nat) (x : Int), IsInt32 x →
    fuel < popcount_naive (toUInt x) → reverse_clear_loop fuel x = Res.ok none := by
  have p0 : popcount_naive (toUInt 0) = 0 := by decide
  intro fuel
  induction fuel with
  | zero =>
    intro x hx hp
    by_cases h0 : x = 0
    · rw [h0, p0] at hp; omega
    · show (if x = 0 then Res.ok (some []) else Res.ok none) = _
      rw [if_neg h0]
  | succ fuel ih =>
    intro x hx hp
    by_cases h0 : x = 0
    · rw [h0, p0] at hp; omega
    · have hpos := toUInt_pos x hx h0
      have hu := toUInt_lt x
      have hpc := (popcount_pos (toUInt x) hpos hu).2
      have hx1 := toUInt_toInt_sub (toUInt x) (2 ^ (31 - builtin_clz (toUInt x))) hu
      have h := ih (toInt (toUInt x - 2 ^ (31 - builtin_clz (toUInt x)))) (isInt32_toInt _)
        (by rw [hx1]; omega)
      rw [reverse_clear_loop_step fuel x hx h0, h]
      rfl



/-! ## Bit scan: contracts -/

/-- C1: for every nonzero 32-bit `x`, `bitscan_forward_i x` returns an index `k` with
`0 <= k <= 31` that is the position of the lowest set bit of the pattern of `x`, its
count of trailing zero bits: `(x >> k) & 1 == 1` and `x & ((1 << k) - 1) == 0`; bit `k`
is set and every bit below `k` is clear. -/
theorem bitscan_forward_i_lowest_set_bit (x : Int) (hx : IsInt32 x) (h0 : x ≠ 0) :
    ∃ k : Nat, bitscan_forward_i x = Res.ok (k : Int) ∧ k ≤ 31 ∧
      (toUInt x >>> k) &&& 1 = 1 ∧ toUInt x &&& ((1 <<< k) - 1) = 0 ∧
      (toUInt x).testBit k = true ∧ ∀ j, j < k → (toUInt x).testBit j = false := by
  have hpos := toUInt_pos x hx h0
  have hlt : toUInt x < 2 ^ 32 := by simpa using toUInt_lt x
  obtain ⟨hk, hb, hm⟩ := ctzLoop_spec 32 (toUInt x) hpos hlt
  refine ⟨builtin_ctz (toUInt x), bitscan_forward_i_eq x h0, ?_, ?_, ?_, ?_, ?_⟩
  · unfold builtin_ctz; omega
  · rw [shiftRight_and_one]; exact hb
  · rw [Nat.shiftLeft_eq, Nat.one_mul, Nat.and_pow_two_sub_one_eq_mod]; exact hm
  · exact testBit_of_bit _ _ hb
  · intro j hj
    have h := Nat.testBit_mod_two_pow (toUInt x) (builtin_ctz (toUInt x)) j
    unfold builtin_ctz at h hj
    rw [hm] at h
    simpa [hj] using h.symm

/-- Instance of C1 at `x = 0b1000`, where the index is 3. -/
theorem bitscan_forward_i_lowest_set_bit_witness :
    bitscan_forward_i 8 = Res.ok 3 ∧
    ∃ k : Nat, bitscan_forward_i 8 = Res.ok (k : Int) ∧ k ≤ 31 ∧
      (toUInt 8 >>> k) &&& 1 = 1 ∧ toUInt 8 &&& ((1 <<< k) - 1) = 0 ∧
      (toUInt 8).testBit k = true ∧ ∀ j, j < k → (toUInt 8).testBit j = false :=
  ⟨by decide, bitscan_forward_i_lowest_set_bit 8 (by decide) (by decide)⟩

/-- C2: for every nonzero 32-bit `x`, `bitscan_reverse_i x` (the path without
`_MSC_VER`) returns the count `r` of leading zero bits of the pattern of `x`, with
`0 <= r <= 31`: bit `31 - r` is set, every bit above it is clear, and the pattern
shifted right by `31 - r` is 1. -/
theorem bitscan_reverse_i_leading_zeros (x : Int) (hx : IsInt32 x) (h0 : x ≠ 0) :
    ∃ r : Nat, bitscan_reverse_i x = Res.ok (r : Int) ∧ r ≤ 31 ∧
      (toUInt x).testBit (31 - r) = true ∧
      (∀ j, 31 - r < j → (toUInt x).testBit j = false) ∧
      toUInt x >>> (31 - r) = 1 := by
  have hpos := toUInt_pos x hx h0
  have hlt : toUInt x < 2 ^ 32 := by simpa using toUInt_lt x
  obtain ⟨hr, hq⟩ := clz_bit_set (toUInt x) hpos (toUInt_lt x)
  obtain ⟨_, _, hi⟩ := clzLoop_spec 32 (toUInt x) hpos hlt
  refine ⟨builtin_clz (toUInt x), bitscan_reverse_i_eq x h0, by omega, ?_, ?_, ?_⟩
  · exact testBit_of_bit _ _ (by rw [hq])
  · intro j hj
    have e1 : 32 - clzLoop 32 (toUInt x) = 31 - builtin_clz (toUInt x) + 1 := by
      unfold builtin_clz at hr ⊢; omega
    rw [e1] at hi
    exact testBit_false_above _ _ j hi hj
  · rw [Nat.shiftRight_eq_div_pow]; exact hq

/-- Instance of C2 at `x = 0b1000`, where the leading-zero count is 28. -/
theorem bitscan_reverse_i_leading_zeros_witness :
    bitscan_reverse_i 8 = Res.ok 28 ∧
    ∃ r : Nat, bitscan_reverse_i 8 = Res.ok (r : Int) ∧ r ≤ 31 ∧
      (toUInt 8).testBit (31 - r) = true ∧
      (∀ j, 31 - r < j → (toUInt 8).testBit j = false) ∧
      toUInt 8 >>> (31 - r) = 1 :=
  ⟨by decide, bitscan_reverse_i_leading_zeros 8 (by decide) (by decide)⟩



/-! ## Scan and clear: contracts -/

/-- C3: for every nonzero 32-bit `x` (the value `INT_MIN` included, `x - 1` being taken
modulo `2^32`), `bitscan_forward_clear_i` returns `k = bitscan_forward_i x` and leaves
`x & ~(1 << k)` in the referenced word: bit `k`, which was set, is cleared and every
other bit is unchanged. -/
theorem bitscan_forward_clear_i_clears_lowest (x : Int) (hx : IsInt32 x) (h0 : x ≠ 0) :
    ∃ (k : Nat) (m a1 : Int), bitscan_forward_i x = Res.ok (k : Int) ∧
      bitscan_forward_clear_i x = Res.ok ((k : Int), a1) ∧
      shl_int 1 k = Res.ok m ∧ a1 = and_int x (not_int m) ∧ IsInt32 a1 ∧
      (toUInt x).testBit k = true ∧
      ∀ j, (toUInt a1).testBit j = ((toUInt x).testBit j && decide (j ≠ k)) := by
  have hpos := toUInt_pos x hx h0
  have hlt : toUInt x < 2 ^ 32 := by simpa using toUInt_lt x
  obtain ⟨hk, hb, _⟩ := ctzLoop_spec 32 (toUInt x) hpos hlt
  refine ⟨builtin_ctz (toUInt x), toInt (2 ^ builtin_ctz (toUInt x)),
    toInt (toUInt x - 2 ^ builtin_ctz (toUInt x)), bitscan_forward_i_eq x h0,
    bitscan_forward_clear_i_eq x hx h0, shl_int_one _ hk,
    (and_int_not_two_pow x _ hk hb).symm, isInt32_toInt _, testBit_of_bit _ _ hb, ?_⟩
  intro j
  rw [toUInt_toInt_sub _ _ (toUInt_lt x)]
  exact testBit_sub_two_pow _ _ j hb

/-- Instance of C3 at `x = INT_MIN`, whose only set bit is bit 31. -/
theorem bitscan_forward_clear_i_clears_lowest_witness :
    bitscan_forward_clear_i (-2147483648) = Res.ok (31, 0) ∧
    ∃ (k : Nat) (m a1 : Int), bitscan_forward_i (-2147483648) = Res.ok (k : Int) ∧
      bitscan_forward_clear_i (-2147483648) = Res.ok ((k : Int), a1) ∧
      shl_int 1 k = Res.ok m ∧ a1 = and_int (-2147483648) (not_int m) ∧ IsInt32 a1 ∧
      (toUInt (-2147483648)).testBit k = true ∧
      ∀ j, (toUInt a1).testBit j = ((toUInt (-2147483648)).testBit j && decide (j ≠ k)) :=
  ⟨by decide, bitscan_forward_clear_i_clears_lowest (-2147483648) (by decide) (by decide)⟩

/-- C4: for every nonzero 32-bit `x`, `bitscan_reverse_clear_i` returns
`r = bitscan_reverse_i x`, the leading-zero count, and leaves in the referenced word
`x` with its highest set bit, at position `31 - r`, cleared and every other bit
unchanged. -/
theorem bitscan_reverse_clear_i_clears_highest (x : Int) (hx : IsInt32 x) (h0 : x ≠ 0) :
    ∃ (r : Nat) (m a1 : Int), bitscan_reverse_i x = Res.ok (r : Int) ∧ r ≤ 31 ∧
      bitscan_reverse_clear_i x = Res.ok ((r : Int), a1) ∧
      shl_int 1 (31 - r) = Res.ok m ∧ a1 = and_int x (not_int m) ∧ IsInt32 a1 ∧
      (toUInt x).testBit (31 - r) = true ∧
      (∀ j, 31 - r < j → (toUInt x).testBit j = false) ∧
      ∀ j, (toUInt a1).testBit j = ((toUInt x).testBit j && decide (j ≠ 31 - r)) := by
  have hpos := toUInt_pos x hx h0
  have hlt : toUInt x < 2 ^ 32 := by simpa using toUInt_lt x
  obtain ⟨hr, hq⟩ := clz_bit_set (toUInt x) hpos (toUInt_lt x)
  obtain ⟨_, _, hi⟩ := clzLoop_spec 32 (toUInt x) hpos hlt
  have hb : toUInt x / 2 ^ (31 - builtin_clz (toUInt x)) % 2 = 1 := by rw [hq]
  have hk : 31 - builtin_clz (toUInt x) < 32 := by omega
  refine ⟨builtin_clz (toUInt x), toInt (2 ^ (31 - builtin_clz (toUInt x))),
    toInt (toUInt x - 2 ^ (31 - builtin_clz (toUInt x))), bitscan_reverse_i_eq x h0,
    by omega, bitscan_reverse_clear_i_eq x hx h0, shl_int_one _ hk,
    (and_int_not_two_pow x _ hk hb).symm, isInt32_toInt _, testBit_of_bit _ _ hb, ?_, ?_⟩
  · intro j hj
    have e1 : 32 - clzLoop 32 (toUInt x) = 31 - builtin_clz (toUInt x) + 1 := by
      unfold builtin_clz at hr ⊢; omega
    rw [e1] at hi
    exact testBit_false_above _ _ j hi hj
  · intro j
    rw [toUInt_toInt_sub _ _ (toUInt_lt x)]
    exact testBit_sub_two_pow _ _ j hb

/-- Instance of C4 at `x = 0b1010`: the call returns 28 and leaves `0b0010`. -/
theorem bitscan_reverse_clear_i_clears_highest_witness :
    bitscan_reverse_clear_i 10 = Res.ok (28, 2) ∧
    ∃ (r : Nat) (m a1 : Int), bitscan_reverse_i 10 = Res.ok (r : Int) ∧ r ≤ 31 ∧
      bitscan_reverse_clear_i 10 = Res.ok ((r : Int), a1) ∧
      shl_int 1 (31 - r) = Res.ok m ∧ a1 = and_int 10 (not_int m) ∧ IsInt32 a1 ∧
      (toUInt 10).testBit (31 - r) = true ∧
      (∀ j, 31 - r < j → (toUInt 10).testBit j = false) ∧
      ∀ j, (toUInt a1).testBit j = ((toUInt 10).testBit j && decide (j ≠ 31 - r)) :=
  ⟨by decide, bitscan_reverse_clear_i_clears_highest 10 (by decide) (by decide)⟩

/-- C5: for every nonzero 32-bit `x`, the word left by `bitscan_forward_clear_i` and
the word left by `bitscan_reverse_clear_i` each have exactly one set bit fewer than
`x`: the population count of `x` is that of the new word plus one. -/
theorem scan_clear_popcount_pred (x : Int) (hx : IsInt32 x) (h0 : x ≠ 0) :
    (∃ i a1, bitscan_forward_clear_i x = Res.ok (i, a1) ∧
      popcount_naive (toUInt a1) + 1 = popcount_naive (toUInt x) ∧
      popcount_naive (toUInt a1) = popcount_naive (toUInt x) - 1) ∧
    (∃ i a1, bitscan_reverse_clear_i x = Res.ok (i, a1) ∧
      popcount_naive (toUInt a1) + 1 = popcount_naive (toUInt x) ∧
      popcount_naive (toUInt a1) = popcount_naive (toUInt x) - 1) := by
  have hpos := toUInt_pos x hx h0
  have hlt : toUInt x < 2 ^ 32 := by simpa using toUInt_lt x
  obtain ⟨hk, hb, _⟩ := ctzLoop_spec 32 (toUInt x) hpos hlt
  obtain ⟨hr, hq⟩ := clz_bit_set (toUInt x) hpos (toUInt_lt x)
  have hb2 : toUInt x / 2 ^ (31 - builtin_clz (toUInt x)) % 2 = 1 := by rw [hq]
  constructor
  · refine ⟨_, _, bitscan_forward_clear_i_eq x hx h0, ?_⟩
    rw [toUInt_toInt_sub _ _ (toUInt_lt x)]
    have := popcountLoop_clear_bit 32 (toUInt x) (builtin_ctz (toUInt x)) hk hb
    unfold popcount_naive
    omega
  · refine ⟨_, _, bitscan_reverse_clear_i_eq x hx h0, ?_⟩
    rw [toUInt_toInt_sub _ _ (toUInt_lt x)]
    have := popcountLoop_clear_bit 32 (toUInt x) (31 - builtin_clz (toUInt x)) (by omega) hb2
    unfold popcount_naive
    omega

/-- Instance of C5 at `x = -1`, the pattern with all 32 bits set. -/
theorem scan_clear_popcount_pred_witness :
    popcount_naive (toUInt (-1)) = 32 ∧
    ((∃ i a1, bitscan_forward_clear_i (-1) = Res.ok (i, a1) ∧
      popcount_naive (toUInt a1) + 1 = popcount_naive (toUInt (-1)) ∧
      popcount_naive (toUInt a1) = popcount_naive (toUInt (-1)) - 1) ∧
    (∃ i a1, bitscan_reverse_clear_i (-1) = Res.ok (i, a1) ∧
      popcount_naive (toUInt a1) + 1 = popcount_naive (toUInt (-1)) ∧
      popcount_naive (toUInt a1) = popcount_naive (toUInt (-1)) - 1)) :=
  ⟨by decide, scan_clear_popcount_pred (-1) (by decide) (by decide)⟩

/-- C6 as stated fails for the reverse primitive: on `x = -1` (all bits set)
`bitscan_reverse_clear_i` returns 0 and leaves `0x7FFFFFFF`, whose bit 0 is still
set. -/
theorem bitscan_reverse_clear_i_returned_bit_still_set :
    IsInt32 (-1) ∧ (-1 : Int) ≠ 0 ∧
    ∃ i a1, bitscan_reverse_clear_i (-1) = Res.ok (i, a1) ∧
      (toUInt a1 >>> i.toNat) &&& 1 = 1 :=
  ⟨by decide, by decide, 0, 2147483647, by decide, by decide⟩

/-- C6 amended: for every nonzero 32-bit `x`, after `bitscan_forward_clear_i` returns
`i`, bit `i` of the referenced word is 0; after `bitscan_reverse_clear_i` returns `r`
(a leading-zero count), bit `31 - r` of the referenced word is 0. -/
theorem scan_clear_found_bit_zero (x : Int) (hx : IsInt32 x) (h0 : x ≠ 0) :
    (∃ (i : Nat) (a1 : Int), bitscan_forward_clear_i x = Res.ok ((i : Int), a1) ∧
      (toUInt a1 >>> i) &&& 1 = 0) ∧
    (∃ (r : Nat) (a1 : Int), bitscan_reverse_clear_i x = Res.ok ((r : Int), a1) ∧
      r ≤ 31 ∧ (toUInt a1 >>> (31 - r)) &&& 1 = 0) := by
  have hpos := toUInt_pos x hx h0
  have hlt : toUInt x < 2 ^ 32 := by simpa using toUInt_lt x
  obtain ⟨hk, hb, _⟩ := ctzLoop_spec 32 (toUInt x) hpos hlt
  obtain ⟨hr, hq⟩ := clz_bit_set (toUInt x) hpos (toUInt_lt x)
  have hb2 : toUInt x / 2 ^ (31 - builtin_clz (toUInt x)) % 2 = 1 := by rw [hq]
  constructor
  · refine ⟨_, _, bitscan_forward_clear_i_eq x hx h0, ?_⟩
    rw [toUInt_toInt_sub _ _ (toUInt_lt x), shiftRight_and_one]
    apply bit_of_testBit_false
    rw [testBit_sub_two_pow (builtin_ctz (toUInt x)) _ _ hb]
    simp
  · refine ⟨_, _, bitscan_reverse_clear_i_eq x hx h0, by omega, ?_⟩
    rw [toUInt_toInt_sub _ _ (toUInt_lt x), shiftRight_and_one]
    apply bit_of_testBit_false
    rw [testBit_sub_two_pow _ _ _ hb2]
    simp

/-- Instance of the amended C6 at `x = -1`. -/
theorem scan_clear_found_bit_zero_witness :
    (∃ (i : Nat) (a1 : Int), bitscan_forward_clear_i (-1) = Res.ok ((i : Int), a1) ∧
      (toUInt a1 >>> i) &&& 1 = 0) ∧
    (∃ (r : Nat) (a1 : Int), bitscan_reverse_clear_i (-1) = Res.ok ((r : Int), a1) ∧
      r ≤ 31 ∧ (toUInt a1 >>> (31 - r)) &&& 1 = 0) :=
  scan_clear_found_bit_zero (-1) (by decide) (by decide)



/-! ## Highest order bit: contracts -/

/-- C7 as stated fails on words with bit 31 set: at `n = 0x80000000` the reverse scan
returns 0, the shift `1 << (32 - 0)` has a count equal to the width of its operand,
and no value `2^(31+1)` is produced. -/
theorem highest_order_bit_uint_top_bit_no_value :
    (2147483648 : Nat) < 4294967296 ∧ (2147483648 : Nat).testBit 31 = true ∧
    bitscan_reverse_uint 2147483648 = Res.ok 0 ∧
    highest_order_bit_uint 2147483648 = Res.fault Fault.shiftCount ∧
    ¬ ∃ v, highest_order_bit_uint 2147483648 = Res.ok v := by
  have h : highest_order_bit_uint 2147483648 = Res.fault Fault.shiftCount := by decide
  refine ⟨by decide, by decide, by decide, h, ?_⟩
  rintro ⟨v, hv⟩
  rw [h] at hv
  cases hv

/-- C7 amended: for every unsigned 32-bit `n` below `2^31`, `highest_order_bit_uint n`
is 0 when `n` is 0, and otherwise is `2^(p+1)`, a value with exactly one set bit, one
position above the highest set bit `p` of `n`. -/
theorem highest_order_bit_uint_below_top_bit (n : Nat) (hn : n < 2147483648) :
    (n = 0 → highest_order_bit_uint n = Res.ok 0) ∧
    (n ≠ 0 → ∃ p : Nat, p ≤ 30 ∧ n.testBit p = true ∧
      (∀ j, p < j → n.testBit j = false) ∧
      highest_order_bit_uint n = Res.ok (2 ^ (p + 1)) ∧ 2 ^ (p + 1) < 4294967296 ∧
      ∀ j, (2 ^ (p + 1)).testBit j = decide (j = p + 1)) := by
  constructor
  · intro h; rw [h]; rfl
  · intro hne
    have h0 : 0 < n := Nat.pos_of_ne_zero hne
    have hlt : n < 2 ^ 32 := by
      have : (4294967296 : Nat) = 2 ^ 32 := by decide
      omega
    obtain ⟨hr, hq⟩ := clz_bit_set n h0 (by omega)
    obtain ⟨_, _, hi⟩ := clzLoop_spec 32 n h0 hlt
    have h1 := clz_pos_of_lt n h0 hn
    have e1 : 32 - clzLoop 32 n = 31 - builtin_clz n + 1 := by
      unfold builtin_clz at hr ⊢; omega
    have e2 : 32 - builtin_clz n = 31 - builtin_clz n + 1 := by omega
    rw [e1] at hi
    refine ⟨31 - builtin_clz n, by omega, testBit_of_bit _ _ (by rw [hq]),
      fun j hj => testBit_false_above _ _ j hi hj, ?_, two_pow_lt_word _ (by omega), ?_⟩
    · rw [highest_order_bit_uint_eq n h0 hn, e2]
    · intro j
      rw [Nat.testBit_two_pow]
      by_cases h : j = 31 - builtin_clz n + 1
      · simp [h]
      · have h2 : ¬ (31 - builtin_clz n + 1 = j) := fun e => h e.symm
        simp [h, h2]

/-- Instance of the amended C7 at `n = 5`, where the result is 8. -/
theorem highest_order_bit_uint_below_top_bit_witness :
    highest_order_bit_uint 5 = Res.ok 8 ∧
    ((5 : Nat) = 0 → highest_order_bit_uint 5 = Res.ok 0) ∧
    ((5 : Nat) ≠ 0 → ∃ p : Nat, p ≤ 30 ∧ (5 : Nat).testBit p = true ∧
      (∀ j, p < j → (5 : Nat).testBit j = false) ∧
      highest_order_bit_uint 5 = Res.ok (2 ^ (p + 1)) ∧ 2 ^ (p + 1) < 4294967296 ∧
      ∀ j, (2 ^ (p + 1)).testBit j = decide (j = p + 1)) :=
  ⟨by decide, highest_order_bit_uint_below_top_bit 5 (by decide)⟩

/-- C8: for every unsigned 16-bit `n`, `highest_order_bit_s n` is 0 when `n` is 0, and
otherwise is `2^p` for the highest set bit `p` of `n`: the highest set bit is kept and
every lower bit is cleared, so the result is the largest power of two not above `n`
(`result <= n < 2 * result`). -/
theorem highest_order_bit_s_isolates_top (n : Nat) (hn : n < 65536) :
    (n = 0 → highest_order_bit_s n = 0) ∧
    (n ≠ 0 → ∃ p : Nat, p ≤ 15 ∧ n.testBit p = true ∧
      (∀ j, p < j → n.testBit j = false) ∧
      highest_order_bit_s n = 2 ^ p ∧
      highest_order_bit_s n ≤ n ∧ n < 2 * highest_order_bit_s n ∧
      ∀ j, (highest_order_bit_s n).testBit j = decide (j = p)) := by
  constructor
  · intro h; rw [h]; decide
  · intro hne
    have h0 : 0 < n := Nat.pos_of_ne_zero hne
    have hlt : n < 2 ^ 16 := by
      have : (65536 : Nat) = 2 ^ 16 := by decide
      omega
    obtain ⟨hr, lo, hi⟩ := clzLoop_spec 16 n h0 hlt
    have e0 : 16 - 1 - clzLoop 16 n = 15 - clzLoop 16 n := rfl
    have e1 : 16 - clzLoop 16 n = 15 - clzLoop 16 n + 1 := by omega
    rw [e0] at lo
    rw [e1] at hi
    have hv := highest_order_bit_s_eq (15 - clzLoop 16 n) n (by omega) lo hi
    refine ⟨15 - clzLoop 16 n, by omega,
      testBit_of_bit _ _ (by rw [testBit_of_range n _ lo hi]),
      fun j hj => testBit_false_above _ _ j hi hj, hv, ?_, ?_, ?_⟩
    · rw [hv]; exact lo
    · rw [hv]; rw [pow_succ] at hi; omega
    · intro j
      rw [hv, Nat.testBit_two_pow]
      by_cases h : j = 15 - clzLoop 16 n
      · simp [h]
      · have h2 : ¬ (15 - clzLoop 16 n = j) := fun e => h e.symm
        simp [h, h2]

/-- Instance of C8 at `n = 0b01011010`, where the result is `0b01000000`. -/
theorem highest_order_bit_s_isolates_top_witness :
    highest_order_bit_s 0b01011010 = 0b01000000 ∧ highest_order_bit_s 0 = 0 ∧
    ((90 : Nat) = 0 → highest_order_bit_s 90 = 0) ∧
    ((90 : Nat) ≠ 0 → ∃ p : Nat, p ≤ 15 ∧ (90 : Nat).testBit p = true ∧
      (∀ j, p < j → (90 : Nat).testBit j = false) ∧
      highest_order_bit_s 90 = 2 ^ p ∧
      highest_order_bit_s 90 ≤ 90 ∧ 90 < 2 * highest_order_bit_s 90 ∧
      ∀ j, (highest_order_bit_s 90).testBit j = decide (j = p)) :=
  ⟨by decide, by decide, highest_order_bit_s_isolates_top 90 (by decide)⟩

/-! ## Population count: contract -/

/-- C9: for every unsigned 32-bit `i`, the SWAR fallback `count_bits_i i`, with all
arithmetic modulo `2^32`, equals the number of set bits of `i` as computed by the
naive bit-by-bit loop. -/
theorem count_bits_i_eq_popcount_naive (i : Nat) (hi : i < 4294967296) :
    count_bits_i i = (popcount_naive i : Int) := by
  have b3 : i / 16777216 < 256 := by omega
  have m0 : i % 256 < 256 := Nat.mod_lt _ (by decide)
  have m1 : i / 256 % 256 < 256 := Nat.mod_lt _ (by decide)
  have m2 : i / 65536 % 256 < 256 := Nat.mod_lt _ (by decide)
  obtain ⟨l0, u0, f0⟩ := swar_byte_facts (i % 256) m0
  obtain ⟨l1, u1, f1⟩ := swar_byte_facts (i / 256 % 256) m1
  obtain ⟨l2, u2, f2⟩ := swar_byte_facts (i / 65536 % 256) m2
  obtain ⟨l3, u3, f3⟩ := swar_byte_facts (i / 16777216) b3
  have c0 : swar_pairs (i % 256) < 256 := Nat.lt_of_le_of_lt (Nat.sub_le _ _) m0
  have c1 : swar_pairs (i / 256 % 256) < 256 := Nat.lt_of_le_of_lt (Nat.sub_le _ _) m1
  have c2 : swar_pairs (i / 65536 % 256) < 256 := Nat.lt_of_le_of_lt (Nat.sub_le _ _) m2
  have d0 : swar_nibbles (swar_pairs (i % 256)) < 256 := by omega
  have d1 : swar_nibbles (swar_pairs (i / 256 % 256)) < 256 := by omega
  have d2 : swar_nibbles (swar_pairs (i / 65536 % 256)) < 256 := by omega
  obtain ⟨y0, y1, y2, y3⟩ := bytes_pack (swar_pairs (i % 256)) (swar_pairs (i / 256 % 256))
    (swar_pairs (i / 65536 % 256)) (swar_pairs (i / 16777216)) c0 c1 c2
  have s2 := count_step2 (swar_pairs (i % 256) + 256 * swar_pairs (i / 256 % 256)
    + 65536 * swar_pairs (i / 65536 % 256) + 16777216 * swar_pairs (i / 16777216))
  rw [y0, y1, y2, y3] at s2
  have s3 := count_step3 _ _ _ _ l0 u0 l1 u1 l2 u2 l3 u3
  have s4 := count_step4 (swar_byte (swar_nibbles (swar_pairs (i % 256))))
    (swar_byte (swar_nibbles (swar_pairs (i / 256 % 256))))
    (swar_byte (swar_nibbles (swar_pairs (i / 65536 % 256))))
    (swar_byte (swar_nibbles (swar_pairs (i / 16777216))))
    (by unfold swar_byte; omega) (by unfold swar_byte; omega)
    (by unfold swar_byte; omega) (by unfold swar_byte; omega)
  have g0 : popcountLoop 8 (i % 256) ≤ 8 := by rw [← f0]; unfold swar_byte; omega
  have g1 : popcountLoop 8 (i / 256 % 256) ≤ 8 := by rw [← f1]; unfold swar_byte; omega
  have g2 : popcountLoop 8 (i / 65536 % 256) ≤ 8 := by rw [← f2]; unfold swar_byte; omega
  have g3 : popcountLoop 8 (i / 16777216) ≤ 8 := by rw [← f3]; unfold swar_byte; omega
  unfold count_bits_i
  simp only []
  rw [count_step1 i hi, s2, s3, s4, f0, f1, f2, f3, popcount_bytes i]
  exact toInt_small _ (by omega)

/-- Instance of C9 at `i = 0xFFFFFFFF`, with the values at 0 and at `0xFFFFFFFF`. -/
theorem count_bits_i_eq_popcount_naive_witness :
    count_bits_i 0 = 0 ∧ count_bits_i 0xFFFFFFFF = 32 ∧
    count_bits_i 4294967295 = (popcount_naive 4294967295 : Int) :=
  ⟨by decide, by decide, count_bits_i_eq_popcount_naive 4294967295 (by decide)⟩

/-! ## The two compile-time paths -/

/-- C10, evaluation at `a = 0b1000`: under `_MSC_VER` `bitscan_reverse_i` returns 3,
the index of the highest set bit counted from the least significant bit, while the
`__builtin_clz` path returns 28; the two paths of `bitscan_forward_i` both return
3. -/
theorem bitscan_reverse_i_paths_differ :
    IsInt32 8 ∧ (8 : Int) ≠ 0 ∧
    bitscan_reverse_i_msvc 8 = Res.ok 3 ∧ bitscan_reverse_i 8 = Res.ok 28 ∧
    bitscan_reverse_i_msvc 8 ≠ bitscan_reverse_i 8 ∧
    bitscan_forward_i_msvc 8 = Res.ok 3 ∧ bitscan_forward_i 8 = Res.ok 3 := by
  refine ⟨by decide, by decide, by decide, by decide, by decide, by decide, by decide⟩



/-! ## Reinterpretation: contracts -/

/-- C11: reinterpretation never alters the bits.  For every 32-bit pattern `p`,
`float_as_int (int_as_float p) = p` and `float_as_uint (uint_as_float u) = u`, and for
every float bit pattern `f`, `int_as_float (float_as_int f)` and
`uint_as_float (float_as_uint f)` have exactly the bit pattern of `f`; NaN and infinity
patterns are patterns like all others. -/
theorem float_int_roundtrip (p : Int) (u : Nat) (f : Float32)
    (hp : IsInt32 p) (hu : u < 4294967296) (hf : f.Valid) :
    float_as_int (int_as_float p) = p ∧ float_as_uint (uint_as_float u) = u ∧
    int_as_float (float_as_int f) = f ∧ uint_as_float (float_as_uint f) = f ∧
    (int_as_float p).bits = toUInt p ∧ (uint_as_float u).bits = u ∧
    toUInt (float_as_int f) = f.bits ∧ float_as_uint f = f.bits := by
  unfold Float32.Valid at hf
  have hlt := toUInt_lt p
  have e1 : toUInt p % 4294967296 = toUInt p := Nat.mod_eq_of_lt hlt
  have e2 : u % 4294967296 = u := Nat.mod_eq_of_lt hu
  have e3 : f.bits % 4294967296 = f.bits := Nat.mod_eq_of_lt hf
  have e4 : toUInt (toInt f.bits) = f.bits := by rw [toUInt_toInt, e3]
  refine ⟨?_, ?_, ?_, ?_, rfl, ?_, ?_, ?_⟩
  · show toInt (toUInt p % 4294967296) = p
    rw [e1, toInt_toUInt p hp]
  · show u % 4294967296 % 4294967296 = u
    rw [e2, e2]
  · show (⟨toUInt (toInt (f.bits % 4294967296))⟩ : Float32) = f
    rw [e3, e4]
  · show (⟨f.bits % 4294967296 % 4294967296⟩ : Float32) = f
    rw [e3, e3]
  · show u % 4294967296 = u
    exact e2
  · show toUInt (toInt (f.bits % 4294967296)) = f.bits
    rw [e3, e4]
  · show f.bits % 4294967296 = f.bits
    exact e3

/-- Instance of C11 at the all-ones pattern (a NaN) and at the pattern of `+inf`. -/
theorem float_int_roundtrip_witness :
    (int_as_float (-1)).isNaN = true ∧ (uint_as_float 0x7F800000).isInf = true ∧
    (float_as_int (int_as_float (-1)) = -1 ∧
     float_as_uint (uint_as_float 0x7F800000) = 0x7F800000 ∧
     int_as_float (float_as_int ⟨0x7FC00000⟩) = ⟨0x7FC00000⟩ ∧
     uint_as_float (float_as_uint ⟨0x7FC00000⟩) = ⟨0x7FC00000⟩ ∧
     (int_as_float (-1)).bits = toUInt (-1) ∧ (uint_as_float 0x7F800000).bits = 0x7F800000 ∧
     toUInt (float_as_int ⟨0x7FC00000⟩) = (⟨0x7FC00000⟩ : Float32).bits ∧
     float_as_uint ⟨0x7FC00000⟩ = (⟨0x7FC00000⟩ : Float32).bits) :=
  ⟨by decide, by decide,
    float_int_roundtrip (-1) 0x7F800000 ⟨0x7FC00000⟩ (by decide) (by decide) (by decide)⟩

/-- C12: for every float bit pattern `x` and every 32-bit `y`, the bit pattern of
`xor_fl x y` is the bitwise XOR of the pattern of `x` with that of `y`
(`float_as_int (xor_fl x y) = float_as_int x ^ y`), and `xor_fl x 0` is `x` bit for
bit. -/
theorem xor_fl_bits (x : Float32) (y : Int) (hx : x.Valid) (_hy : IsInt32 y) :
    float_as_int (xor_fl x y) = xor_int (float_as_int x) y ∧
    (xor_fl x y).bits = x.bits ^^^ toUInt y ∧
    xor_fl x 0 = x := by
  unfold Float32.Valid at hx
  have e3 : x.bits % 4294967296 = x.bits := Nat.mod_eq_of_lt hx
  have e4 : toUInt (toInt x.bits) = x.bits := by rw [toUInt_toInt, e3]
  have hlt : x.bits ^^^ toUInt y < 4294967296 := by
    have h1 : x.bits < 2 ^ 32 := by simpa using hx
    have h2 : toUInt y < 2 ^ 32 := by simpa using toUInt_lt y
    simpa using Nat.xor_lt_two_pow h1 h2
  have e5 : toUInt (xor_int (float_as_int x) y) = x.bits ^^^ toUInt y := by
    show toUInt (toInt (toUInt (toInt (x.bits % 4294967296)) ^^^ toUInt y)) = _
    rw [e3, e4, toUInt_toInt, Nat.mod_eq_of_lt hlt]
  have e6 : (xor_fl x y).bits = x.bits ^^^ toUInt y := e5
  refine ⟨?_, e6, ?_⟩
  · show toInt ((xor_fl x y).bits % 4294967296) = _
    rw [e6, Nat.mod_eq_of_lt hlt]
    show _ = toInt (toUInt (toInt (x.bits % 4294967296)) ^^^ toUInt y)
    rw [e3, e4]
  · show (⟨toUInt (toInt (toUInt (toInt (x.bits % 4294967296)) ^^^ toUInt 0))⟩ : Float32) = x
    have z : toUInt 0 = 0 := by decide
    rw [e3, e4, z, Nat.xor_zero, e4]

/-- Instance of C12 at `x = -0.0`: flipping the sign bit gives `+0.0`, the mask 0
gives back `-0.0`. -/
theorem xor_fl_bits_witness :
    xor_fl ⟨0x80000000⟩ (-2147483648) = ⟨0⟩ ∧
    xor_fl ⟨0x80000000⟩ 0 = ⟨0x80000000⟩ ∧
    (float_as_int (xor_fl ⟨0x80000000⟩ (-2147483648))
        = xor_int (float_as_int ⟨0x80000000⟩) (-2147483648) ∧
      (xor_fl ⟨0x80000000⟩ (-2147483648)).bits
        = (⟨0x80000000⟩ : Float32).bits ^^^ toUInt (-2147483648) ∧
      xor_fl ⟨0x80000000⟩ 0 = ⟨0x80000000⟩) :=
  ⟨by decide, by decide, xor_fl_bits ⟨0x80000000⟩ (-2147483648) (by decide) (by decide)⟩



/-! ## Unsigned variants and preconditions: contracts -/

/-- C14: for every nonzero unsigned 32-bit `a`, bit 31 set or not, the unsigned
variants act on the bit pattern with no sign-extension effect: `bitscan_forward_uint a`
is the trailing-zero count `k` of `a`, `bitscan_reverse_uint a` is the leading-zero
count `r` of `a`, and the unsigned scan-and-clear variants return the same index and
leave the same 32-bit pattern as the signed ones applied to the reinterpreted value. -/
theorem unsigned_variants_match_signed (a : Nat) (h0 : a ≠ 0) (ha : a < 4294967296) :
    ∃ (k r : Nat) (f1 r1 : Int),
      bitscan_forward_uint a = Res.ok k ∧ bitscan_forward_i (toInt a) = Res.ok (k : Int) ∧
      k ≤ 31 ∧ a.testBit k = true ∧ (∀ j, j < k → a.testBit j = false) ∧
      bitscan_reverse_uint a = Res.ok r ∧ bitscan_reverse_i (toInt a) = Res.ok (r : Int) ∧
      r ≤ 31 ∧ a.testBit (31 - r) = true ∧ (∀ j, 31 - r < j → a.testBit j = false) ∧
      bitscan_forward_clear_i (toInt a) = Res.ok ((k : Int), f1) ∧
      bitscan_forward_clear_uint a = Res.ok (k, toUInt f1) ∧ toUInt f1 = a - 2 ^ k ∧
      bitscan_reverse_clear_i (toInt a) = Res.ok ((r : Int), r1) ∧
      bitscan_reverse_clear_uint a = Res.ok (r, toUInt r1) ∧
      toUInt r1 = a - 2 ^ (31 - r) := by
  have hpos : 0 < a := Nat.pos_of_ne_zero h0
  have hne := toInt_ne_zero a hpos ha
  have hi32 := isInt32_toInt a
  have hu := toUInt_toInt_of_lt a ha
  obtain ⟨hk, hb, _⟩ := ctz_facts a hpos ha
  obtain ⟨hr, lo, hi⟩ := clz_bounds a hpos ha
  have e1 := bitscan_forward_i_eq (toInt a) hne
  have e2 := bitscan_reverse_i_eq (toInt a) hne
  have e3 := bitscan_forward_clear_i_eq (toInt a) hi32 hne
  have e4 := bitscan_reverse_clear_i_eq (toInt a) hi32 hne
  rw [hu] at e1 e2 e3 e4
  refine ⟨builtin_ctz a, builtin_clz a, toInt (a - 2 ^ builtin_ctz a),
    toInt (a - 2 ^ (31 - builtin_clz a)), bitscan_forward_uint_eq a hpos ha, e1, by omega,
    testBit_of_bit _ _ hb, fun j hj => testBit_false_below_ctz a j hpos ha hj,
    bitscan_reverse_uint_eq_word a hpos ha, e2, by omega,
    testBit_of_bit _ _ (by rw [testBit_of_range a _ lo hi]),
    fun j hj => testBit_false_above _ _ j hi hj, e3, ?_, toUInt_toInt_sub _ _ ha, e4, ?_,
    toUInt_toInt_sub _ _ ha⟩
  · rw [toUInt_toInt_sub _ _ ha]; exact bitscan_forward_clear_uint_eq a hpos ha
  · rw [toUInt_toInt_sub _ _ ha]; exact bitscan_reverse_clear_uint_eq a hpos ha

/-- Instance of C14 at `a = 0x80000001`, a word with bit 31 set: the forward scan gives
0, the reverse scan gives 0. -/
theorem unsigned_variants_match_signed_witness :
    bitscan_forward_uint 0x80000001 = Res.ok 0 ∧ bitscan_reverse_uint 0x80000001 = Res.ok 0 ∧
    bitscan_forward_clear_uint 0x80000001 = Res.ok (0, 0x80000000) ∧
    bitscan_reverse_clear_uint 0x80000001 = Res.ok (0, 1) ∧
    ∃ (k r : Nat) (f1 r1 : Int),
      bitscan_forward_uint 2147483649 = Res.ok k ∧
      bitscan_forward_i (toInt 2147483649) = Res.ok (k : Int) ∧
      k ≤ 31 ∧ (2147483649 : Nat).testBit k = true ∧
      (∀ j, j < k → (2147483649 : Nat).testBit j = false) ∧
      bitscan_reverse_uint 2147483649 = Res.ok r ∧
      bitscan_reverse_i (toInt 2147483649) = Res.ok (r : Int) ∧
      r ≤ 31 ∧ (2147483649 : Nat).testBit (31 - r) = true ∧
      (∀ j, 31 - r < j → (2147483649 : Nat).testBit j = false) ∧
      bitscan_forward_clear_i (toInt 2147483649) = Res.ok ((k : Int), f1) ∧
      bitscan_forward_clear_uint 2147483649 = Res.ok (k, toUInt f1) ∧
      toUInt f1 = 2147483649 - 2 ^ k ∧
      bitscan_reverse_clear_i (toInt 2147483649) = Res.ok ((r : Int), r1) ∧
      bitscan_reverse_clear_uint 2147483649 = Res.ok (r, toUInt r1) ∧
      toUInt r1 = 2147483649 - 2 ^ (31 - r) :=
  ⟨by decide, by decide, by decide, by decide,
    unsigned_variants_match_signed 2147483649 (by decide) (by decide)⟩

/-- C15: the precondition check of the scans fails exactly on zero.  For every 32-bit
`a` the assertion of `bitscan_forward_i` and of `bitscan_reverse_i`, and with them of
the scan-and-clear and unsigned variants, is violated if and only if the word is 0;
a nonzero word makes every one of them return a value; `highest_order_bit_uint`, the
only other caller of a scan, never fails the assertion. -/
theorem scan_assertion_iff_zero (a : Int) (u : Nat) (ha : IsInt32 a) (hu : u < 4294967296) :
    (bitscan_forward_i a = Res.fault Fault.assertion ↔ a = 0) ∧
    (bitscan_reverse_i a = Res.fault Fault.assertion ↔ a = 0) ∧
    (bitscan_forward_clear_i a = Res.fault Fault.assertion ↔ a = 0) ∧
    (bitscan_reverse_clear_i a = Res.fault Fault.assertion ↔ a = 0) ∧
    (bitscan_forward_uint u = Res.fault Fault.assertion ↔ u = 0) ∧
    (bitscan_reverse_uint u = Res.fault Fault.assertion ↔ u = 0) ∧
    (bitscan_forward_clear_uint u = Res.fault Fault.assertion ↔ u = 0) ∧
    (bitscan_reverse_clear_uint u = Res.fault Fault.assertion ↔ u = 0) ∧
    (a ≠ 0 → ∃ k r : Int, bitscan_forward_i a = Res.ok k ∧
      bitscan_reverse_i a = Res.ok r) ∧
    highest_order_bit_uint u ≠ Res.fault Fault.assertion := by
  refine ⟨?_, ?_, ?_, ?_, ?_, ?_, ?_, ?_, ?_, ?_⟩
  · constructor
    · intro h; by_contra hne; rw [bitscan_forward_i_eq a hne] at h; cases h
    · intro h; rw [h]; rfl
  · constructor
    · intro h; by_contra hne; rw [bitscan_reverse_i_eq a hne] at h; cases h
    · intro h; rw [h]; rfl
  · constructor
    · intro h; by_contra hne; rw [bitscan_forward_clear_i_eq a ha hne] at h; cases h
    · intro h; rw [h]; rfl
  · constructor
    · intro h; by_contra hne; rw [bitscan_reverse_clear_i_eq a ha hne] at h; cases h
    · intro h; rw [h]; rfl
  · constructor
    · intro h; by_contra hne
      rw [bitscan_forward_uint_eq u (Nat.pos_of_ne_zero hne) hu] at h; cases h
    · intro h; rw [h]; rfl
  · constructor
    · intro h; by_contra hne
      rw [bitscan_reverse_uint_eq_word u (Nat.pos_of_ne_zero hne) hu] at h; cases h
    · intro h; rw [h]; rfl
  · constructor
    · intro h; by_contra hne
      rw [bitscan_forward_clear_uint_eq u (Nat.pos_of_ne_zero hne) hu] at h; cases h
    · intro h; rw [h]; rfl
  · constructor
    · intro h; by_contra hne
      rw [bitscan_reverse_clear_uint_eq u (Nat.pos_of_ne_zero hne) hu] at h; cases h
    · intro h; rw [h]; rfl
  · intro hne
    exact ⟨_, _, bitscan_forward_i_eq a hne, bitscan_reverse_i_eq a hne⟩
  · intro h
    by_cases hz : u = 0
    · rw [hz] at h; cases h
    · by_cases hs : u < 2147483648
      · rw [highest_order_bit_uint_eq u (Nat.pos_of_ne_zero hz) hs] at h; cases h
      · rw [highest_order_bit_uint_fault u (by omega) hu] at h; cases h

/-- Instance of C15 at the words 0 and 0. -/
theorem scan_assertion_iff_zero_witness :
    bitscan_forward_i 0 = Res.fault Fault.assertion ∧
    bitscan_reverse_i 0 = Res.fault Fault.assertion ∧
    ((bitscan_forward_i 0 = Res.fault Fault.assertion ↔ (0 : Int) = 0) ∧
    (bitscan_reverse_i 0 = Res.fault Fault.assertion ↔ (0 : Int) = 0) ∧
    (bitscan_forward_clear_i 0 = Res.fault Fault.assertion ↔ (0 : Int) = 0) ∧
    (bitscan_reverse_clear_i 0 = Res.fault Fault.assertion ↔ (0 : Int) = 0) ∧
    (bitscan_forward_uint 0 = Res.fault Fault.assertion ↔ (0 : Nat) = 0) ∧
    (bitscan_reverse_uint 0 = Res.fault Fault.assertion ↔ (0 : Nat) = 0) ∧
    (bitscan_forward_clear_uint 0 = Res.fault Fault.assertion ↔ (0 : Nat) = 0) ∧
    (bitscan_reverse_clear_uint 0 = Res.fault Fault.assertion ↔ (0 : Nat) = 0) ∧
    ((0 : Int) ≠ 0 → ∃ k r : Int, bitscan_forward_i 0 = Res.ok k ∧
      bitscan_reverse_i 0 = Res.ok r) ∧
    highest_order_bit_uint 0 ≠ Res.fault Fault.assertion) :=
  ⟨by decide, by decide, scan_assertion_iff_zero 0 0 (by decide) (by decide)⟩

/-! ## Highest order bit: totality and rounding -/

/-- C16, evaluation at `n = 0x80000000`: `highest_order_bit_uint` does not reach the
assertion, but the reverse scan returns 0, the shift count `32 - 0` equals the width
of the shifted `int`, and the call stops on that shift. -/
theorem highest_order_bit_uint_shift_count_32 :
    (2147483648 : Nat) < 4294967296 ∧
    bitscan_reverse_uint 2147483648 = Res.ok 0 ∧ sub_size (4 * 8) 0 = 32 ∧
    shl_int 1 32 = Res.fault Fault.shiftCount ∧
    highest_order_bit_uint 2147483648 = Res.fault Fault.shiftCount ∧
    highest_order_bit_uint 4294967295 = Res.fault Fault.shiftCount ∧
    highest_order_bit_uint 2147483647 = Res.ok 2147483648 := by
  refine ⟨by decide, by decide, by decide, by decide, by decide, by decide, by decide⟩

/-- C17: for every unsigned 32-bit `n` with `0 < n < 2^31`, `highest_order_bit_uint n`
is the smallest power of two strictly greater than `n`: the result `r` is a power of
two with `n < r <= 2 * n`, no power of two above `n` is smaller, and when `n` is itself
a power of two the result is `2 * n`. -/
theorem highest_order_bit_uint_next_pow2 (n : Nat) (h0 : 0 < n) (hn : n < 2147483648) :
    ∃ p r : Nat, highest_order_bit_uint n = Res.ok r ∧ r = 2 ^ (p + 1) ∧
      n < r ∧ r ≤ 2 * n ∧ (∀ q, n < 2 ^ q → r ≤ 2 ^ q) ∧
      (∀ e, n = 2 ^ e → r = 2 * n) := by
  obtain ⟨hr, lo, hi⟩ := clz_bounds n h0 (by omega)
  have h1 := clz_pos_of_lt n h0 hn
  have e2 : 32 - builtin_clz n = 31 - builtin_clz n + 1 := by omega
  have hv := highest_order_bit_uint_eq n h0 hn
  rw [e2] at hv
  refine ⟨31 - builtin_clz n, _, hv, rfl, hi, ?_, ?_, ?_⟩
  · rw [pow_succ]; omega
  · intro q hq
    have hlt : 2 ^ (31 - builtin_clz n) < 2 ^ q := Nat.lt_of_le_of_lt lo hq
    have hpq := (Nat.pow_lt_pow_iff_right (by decide)).mp hlt
    exact Nat.pow_le_pow_right (by decide) hpq
  · intro e he
    have lo2 : 2 ^ (31 - builtin_clz n) ≤ 2 ^ e := by rw [← he]; exact lo
    have hi2 : 2 ^ e < 2 ^ (31 - builtin_clz n + 1) := by rw [← he]; exact hi
    have c1 := (Nat.pow_le_pow_iff_right (by decide)).mp lo2
    have c2 := (Nat.pow_lt_pow_iff_right (by decide)).mp hi2
    have ee : 31 - builtin_clz n = e := by omega
    rw [pow_succ, ee, ← he]; omega

/-- Instance of C17 at `n = 4`, a power of two: the result is 8. -/
theorem highest_order_bit_uint_next_pow2_witness :
    highest_order_bit_uint 4 = Res.ok 8 ∧
    ∃ p r : Nat, highest_order_bit_uint 4 = Res.ok r ∧ r = 2 ^ (p + 1) ∧
      4 < r ∧ r ≤ 2 * 4 ∧ (∀ q, 4 < 2 ^ q → r ≤ 2 ^ q) ∧
      (∀ e, 4 = 2 ^ e → r = 2 * 4) :=
  ⟨by decide, highest_order_bit_uint_next_pow2 4 (by decide) (by decide)⟩



/-! ## Relations between the primitives -/

/-- C19: for every nonzero 32-bit `x`, the forward scan `k` and the reverse scan `r`
satisfy `k + r <= 31`, with equality if and only if `x` has exactly one set bit: its
pattern is a power of two, equivalently its population count is 1. -/
theorem bitscan_forward_add_reverse (x : Int) (hx : IsInt32 x) (h0 : x ≠ 0) :
    ∃ k r : Nat, bitscan_forward_i x = Res.ok (k : Int) ∧
      bitscan_reverse_i x = Res.ok (r : Int) ∧ k + r ≤ 31 ∧
      (k + r = 31 ↔ ∃ e, toUInt x = 2 ^ e) ∧
      (k + r = 31 ↔ popcount_naive (toUInt x) = 1) := by
  have hpos := toUInt_pos x hx h0
  have hu := toUInt_lt x
  obtain ⟨hk, hb, hm⟩ := ctz_facts (toUInt x) hpos hu
  obtain ⟨hr, lo, hi⟩ := clz_bounds (toUInt x) hpos hu
  have tk : (toUInt x).testBit (builtin_ctz (toUInt x)) = true := testBit_of_bit _ _ hb
  have hq := testBit_of_range (toUInt x) _ lo hi
  have tp : (toUInt x).testBit (31 - builtin_clz (toUInt x)) = true :=
    testBit_of_bit _ _ (by rw [hq])
  have hle : builtin_ctz (toUInt x) ≤ 31 - builtin_clz (toUInt x) := by
    by_contra hc
    have := testBit_false_above (toUInt x) _ (builtin_ctz (toUInt x)) hi (by omega)
    rw [tk] at this
    cases this
  have fwd : builtin_ctz (toUInt x) + builtin_clz (toUInt x) = 31 →
      toUInt x = 2 ^ builtin_ctz (toUInt x) := by
    intro h
    have e : 31 - builtin_clz (toUInt x) = builtin_ctz (toUInt x) := by omega
    rw [e] at hq
    have hd := Nat.div_add_mod (toUInt x) (2 ^ builtin_ctz (toUInt x))
    rw [hq, hm] at hd
    omega
  have bwd : ∀ e, toUInt x = 2 ^ e →
      builtin_ctz (toUInt x) + builtin_clz (toUInt x) = 31 := by
    intro e he
    have t1 : (2 ^ e).testBit (builtin_ctz (toUInt x)) = true := by rw [← he]; exact tk
    have t2 : (2 ^ e).testBit (31 - builtin_clz (toUInt x)) = true := by rw [← he]; exact tp
    rw [Nat.testBit_two_pow] at t1 t2
    have a1 := of_decide_eq_true t1
    have a2 := of_decide_eq_true t2
    omega
  have hpc := popcountLoop_clear_bit 32 (toUInt x) (builtin_ctz (toUInt x)) hk hb
  have hple : 2 ^ builtin_ctz (toUInt x) ≤ toUInt x := two_pow_le_of_bit _ _ hb
  refine ⟨builtin_ctz (toUInt x), builtin_clz (toUInt x), bitscan_forward_i_eq x h0,
    bitscan_reverse_i_eq x h0, by omega,
    ⟨fun h => ⟨_, fwd h⟩, fun ⟨e, he⟩ => bwd e he⟩, ?_⟩
  unfold popcount_naive
  constructor
  · intro h
    have e := fwd h
    have z : toUInt x - 2 ^ builtin_ctz (toUInt x) = 0 := by omega
    rw [z] at hpc
    have p0 : popcountLoop 32 0 = 0 := by decide
    omega
  · intro h
    have z0 : popcountLoop 32 (toUInt x - 2 ^ builtin_ctz (toUInt x)) = 0 := by omega
    have hlt : toUInt x - 2 ^ builtin_ctz (toUInt x) < 2 ^ 32 := by
      have : toUInt x < 2 ^ 32 := by simpa using hu
      omega
    have z := popcountLoop_eq_zero 32 _ hlt z0
    exact bwd (builtin_ctz (toUInt x)) (by omega)

/-- Instance of C19 at `x = 0b1000` (one set bit: 3 + 28 = 31). -/
theorem bitscan_forward_add_reverse_witness :
    bitscan_forward_i 8 = Res.ok 3 ∧ bitscan_reverse_i 8 = Res.ok 28 ∧
    ∃ k r : Nat, bitscan_forward_i 8 = Res.ok (k : Int) ∧
      bitscan_reverse_i 8 = Res.ok (r : Int) ∧ k + r ≤ 31 ∧
      (k + r = 31 ↔ ∃ e, toUInt 8 = 2 ^ e) ∧
      (k + r = 31 ↔ popcount_naive (toUInt 8) = 1) :=
  ⟨by decide, by decide, bitscan_forward_add_reverse 8 (by decide) (by decide)⟩

/-- C20: for every unsigned 16-bit `n`, `highest_order_bit_uint n` is twice
`highest_order_bit_s n` (both are 0 when `n` is 0), so for every nonzero 16-bit `n` the
two functions return different values. -/
theorem highest_order_bit_uint_twice_s (n : Nat) (hn : n < 65536) :
    ∃ r : Nat, highest_order_bit_uint n = Res.ok r ∧ r = 2 * highest_order_bit_s n ∧
      (n = 0 → r = 0 ∧ highest_order_bit_s n = 0) ∧
      (n ≠ 0 → r ≠ highest_order_bit_s n) := by
  by_cases hz : n = 0
  · subst hz
    exact ⟨0, by decide, by decide, fun _ => ⟨rfl, by decide⟩, fun h => absurd rfl h⟩
  · have h0 : 0 < n := Nat.pos_of_ne_zero hz
    obtain ⟨hr, lo, hi⟩ := clz_bounds n h0 (by omega)
    have h16 : n < 2 ^ 16 := by
      have : (65536 : Nat) = 2 ^ 16 := by decide
      omega
    have hp : 31 - builtin_clz n < 16 :=
      (Nat.pow_lt_pow_iff_right (by decide)).mp (Nat.lt_of_le_of_lt lo h16)
    have hs := highest_order_bit_s_eq (31 - builtin_clz n) n (by omega) lo hi
    have hv := highest_order_bit_uint_eq n h0 (by omega)
    have e2 : 32 - builtin_clz n = 31 - builtin_clz n + 1 := by omega
    rw [e2, pow_succ] at hv
    have hpos : 0 < 2 ^ (31 - builtin_clz n) := Nat.pow_pos (by decide)
    refine ⟨_, hv, ?_, fun h => absurd h hz, fun _ => ?_⟩
    · rw [hs]; omega
    · rw [hs]; omega

/-- Instance of C20 at `n = 0b01011010`: 128 against 64. -/
theorem highest_order_bit_uint_twice_s_witness :
    highest_order_bit_uint 90 = Res.ok 128 ∧ highest_order_bit_s 90 = 64 ∧
    ∃ r : Nat, highest_order_bit_uint 90 = Res.ok r ∧ r = 2 * highest_order_bit_s 90 ∧
      ((90 : Nat) = 0 → r = 0 ∧ highest_order_bit_s 90 = 0) ∧
      ((90 : Nat) ≠ 0 → r ≠ highest_order_bit_s 90) :=
  ⟨by decide, by decide, highest_order_bit_uint_twice_s 90 (by decide)⟩



/-! ## Iterating over the set bits: contracts -/

/-- C13: for every 32-bit `x`, calling `bitscan_forward_clear_i` on the same word until
it is zero ends after exactly `popcount x` calls (none when `x` is 0): with that many
calls allowed, or more, the loop ends with the list `l` of returned indices, with fewer
it does not end; `l` has `popcount x` entries, is strictly increasing, and holds exactly
the positions of the set bits of `x`. -/
theorem forward_clear_loop_enumerates (x : Int) (hx : IsInt32 x) :
    ∃ l : List Nat,
      (∀ fuel, popcount_naive (toUInt x) ≤ fuel →
        forward_clear_loop fuel x = Res.ok (some (l.map (fun j : Nat => (j : Int))))) ∧
      (∀ fuel, fuel < popcount_naive (toUInt x) → forward_clear_loop fuel x = Res.ok none) ∧
      l.length = popcount_naive (toUInt x) ∧
      l.Pairwise (fun a b => a < b) ∧
      (∀ j, j ∈ l ↔ (toUInt x).testBit j = true) ∧
      (x = 0 → l = []) := by
  refine ⟨set_bits_up (toUInt x),
    fun fuel h => (forward_clear_loop_spec fuel x hx h).1,
    fun fuel h => forward_clear_loop_short fuel x hx h,
    (forward_clear_loop_spec _ x hx (Nat.le_refl _)).2, set_bits_up_sorted _, ?_, ?_⟩
  · intro j
    rw [mem_set_bits_up]
    exact ⟨fun h => h.2, fun h => ⟨testBit_lt_32 _ j (toUInt_lt x) h, h⟩⟩
  · intro h; rw [h]; decide

/-- Instance of C13 at `x = 0b01011010`: four calls, returning 1, 3, 4, 6. -/
theorem forward_clear_loop_enumerates_witness :
    popcount_naive (toUInt 90) = 4 ∧
    forward_clear_loop 4 90 = Res.ok (some [1, 3, 4, 6]) ∧
    forward_clear_loop 3 90 = Res.ok none ∧
    ∃ l : List Nat,
      (∀ fuel, popcount_naive (toUInt 90) ≤ fuel →
        forward_clear_loop fuel 90 = Res.ok (some (l.map (fun j : Nat => (j : Int))))) ∧
      (∀ fuel, fuel < popcount_naive (toUInt 90) → forward_clear_loop fuel 90 = Res.ok none) ∧
      l.length = popcount_naive (toUInt 90) ∧
      l.Pairwise (fun a b => a < b) ∧
      (∀ j, j ∈ l ↔ (toUInt 90).testBit j = true) ∧
      ((90 : Int) = 0 → l = []) :=
  ⟨by decide, by decide, by decide, forward_clear_loop_enumerates 90 (by decide)⟩

/-- C18: for every 32-bit `x`, calling `bitscan_reverse_clear_i` on the same word until
it is zero ends after exactly `popcount x` calls; the returned values `rs` are strictly
increasing leading-zero counts, each at most 31, and the positions `31 - r` are exactly
the set-bit positions of `x`, from the highest to the lowest, each once. -/
theorem reverse_clear_loop_enumerates (x : Int) (hx : IsInt32 x) :
    ∃ rs : List Nat,
      (∀ fuel, popcount_naive (toUInt x) ≤ fuel →
        reverse_clear_loop fuel x = Res.ok (some (rs.map (fun r : Nat => (r : Int))))) ∧
      (∀ fuel, fuel < popcount_naive (toUInt x) → reverse_clear_loop fuel x = Res.ok none) ∧
      rs.length = popcount_naive (toUInt x) ∧
      rs.Pairwise (fun a b => a < b) ∧
      (∀ r, r ∈ rs → r ≤ 31) ∧
      (rs.map (fun r => 31 - r)).Pairwise (fun a b => b < a) ∧
      (∀ j, j ∈ rs.map (fun r => 31 - r) ↔ (toUInt x).testBit j = true) := by
  have hlt : ∀ p, p ∈ set_bits_up (toUInt x) → p < 32 :=
    fun p hp => ((mem_set_bits_up _ p).mp hp).1
  have hback : ((set_bits_up (toUInt x)).reverse.map (fun p => 31 - p)).map
      (fun r => 31 - r) = (set_bits_up (toUInt x)).reverse := by
    rw [List.map_map]
    have : ∀ p, p ∈ (set_bits_up (toUInt x)).reverse →
        ((fun r => 31 - r) ∘ (fun p => 31 - p)) p = id p := by
      intro p hp
      have := hlt p (List.mem_reverse.mp hp)
      show 31 - (31 - p) = p
      omega
    rw [List.map_congr_left this, List.map_id]
  refine ⟨(set_bits_up (toUInt x)).reverse.map (fun p => 31 - p), ?_,
    fun fuel h => reverse_clear_loop_short fuel x hx h, ?_, ?_, ?_, ?_, ?_⟩
  · intro fuel h
    rw [(reverse_clear_loop_spec fuel x hx h).1, List.map_map]
    rfl
  · rw [List.length_map, List.length_reverse]
    exact (reverse_clear_loop_spec _ x hx (Nat.le_refl _)).2
  · rw [List.pairwise_map, List.pairwise_reverse]
    apply List.Pairwise.imp_of_mem _ (set_bits_up_sorted (toUInt x))
    intro a b ha hb hab
    have := hlt b hb
    show 31 - b < 31 - a
    omega
  · intro r hr
    rw [List.mem_map] at hr
    obtain ⟨p, _, hp⟩ := hr
    omega
  · rw [hback, List.pairwise_reverse]
    exact set_bits_up_sorted _
  · intro j
    rw [hback, List.mem_reverse, mem_set_bits_up]
    exact ⟨fun h => h.2, fun h => ⟨testBit_lt_32 _ j (toUInt_lt x) h, h⟩⟩

/-- Instance of C18 at `x = 0b01011010`: four calls, returning 25, 27, 28, 30. -/
theorem reverse_clear_loop_enumerates_witness :
    reverse_clear_loop 4 90 = Res.ok (some [25, 27, 28, 30]) ∧
    reverse_clear_loop 3 90 = Res.ok none ∧
    ∃ rs : List Nat,
      (∀ fuel, popcount_naive (toUInt 90) ≤ fuel →
        reverse_clear_loop fuel 90 = Res.ok (some (rs.map (fun r : Nat => (r : Int))))) ∧
      (∀ fuel, fuel < popcount_naive (toUInt 90) → reverse_clear_loop fuel 90 = Res.ok none) ∧
      rs.length = popcount_naive (toUInt 90) ∧
      rs.Pairwise (fun a b => a < b) ∧
      (∀ r, r ∈ rs → r ≤ 31) ∧
      (rs.map (fun r => 31 - r)).Pairwise (fun a b => b < a) ∧
      (∀ j, j ∈ rs.map (fun r => 31 - r) ↔ (toUInt 90).testBit j = true) :=
  ⟨by decide, by decide, reverse_clear_loop_enumerates 90 (by decide)⟩

end MathBits
